import Mathlib

/-!
Shallow embedding of the pallet-packing engine from
`pallet_packer_streamlit.py` together with proofs of the testable
properties stated for it.  Coordinates and dimensions are modelled as
rationals (the source computes with Python floats; the spec's epsilon is
kept literally), order quantities as naturals, dictionaries as
insertion-ordered association lists, and the three `while` loops of the
source as structurally recursive functions driven by an explicit fuel
that is provably never exhausted (the stabilisation lemmas below show
the fuel bound is an upper bound on the number of loop iterations).
-/

namespace PalletPack

/-- A free rectangle of a layer's plane; the source stores it as a
Python list `[x, y, L, W]`. -/
structure FRect where
  x : ℚ
  y : ℚ
  L : ℚ
  W : ℚ
deriving DecidableEq, Repr

/-- A placement result of `try_place`; the source stores it as
`[x, y, L_used, W_used, rotated_flag]`. -/
structure Pos where
  x : ℚ
  y : ℚ
  L : ℚ
  W : ℚ
  rotated : Bool
deriving DecidableEq, Repr

/-- A placed-box record appended to a layer by `pack_one_layer`:
`{'name', 'x', 'y', 'L', 'W', 'H', 'rotated'}`. -/
structure Placed where
  name : String
  x : ℚ
  y : ℚ
  L : ℚ
  W : ℚ
  H : ℚ
  rotated : Bool
deriving DecidableEq, Repr

/-- One entry of the `info` dictionary built by `build_info`. -/
structure BoxInfo where
  L : ℚ
  W : ℚ
  H : ℚ
  Area : ℚ
deriving DecidableEq, Repr

/-- The pallet dictionary `{'L', 'W', 'H'}`. -/
structure PalletDims where
  L : ℚ
  W : ℚ
  H : ℚ
deriving DecidableEq, Repr

/-- The order dictionary: an insertion-ordered map from box name to
remaining quantity. -/
abbrev OrderMap := List (String × Nat)

/-- Dictionary lookup `order_left[nm]` (first entry with the key; a
Python dict has exactly one). -/
def lookupQ : OrderMap → String → Nat
  | [], _ => 0
  | p :: ps, nm => if p.1 = nm then p.2 else lookupQ ps nm

/-- In-place decrement `order_left[nm] -= 1` (on the first entry with
the key). -/
def decQ : OrderMap → String → OrderMap
  | [], _ => []
  | p :: ps, nm => if p.1 = nm then (p.1, p.2 - 1) :: ps else p :: decQ ps nm

/-- Python `sum(order_left.values())`. -/
def totalQty (o : OrderMap) : Nat := (o.map Prod.snd).sum

/-- Number of placements in a list that reference a given box name. -/
def countName (nm : String) (pl : List Placed) : Nat :=
  pl.countP (fun p => decide (p.name = nm))

/-- `build_info`: dims `[L, W, H]` become `{'L', 'W', 'H', 'Area': L*W}`. -/
def build_info (boxes : String → ℚ × ℚ × ℚ) : String → BoxInfo :=
  fun nm => ⟨(boxes nm).1, (boxes nm).2.1, (boxes nm).2.2, (boxes nm).1 * (boxes nm).2.1⟩

/-- `free_area`: area of a free rect. -/
def free_area (fr : FRect) : ℚ := fr.L * fr.W

/-- The floating-rounding threshold `1e-9` of the source. -/
def eps : ℚ := 1 / 1000000000

/-- The two guillotine remainders appended after placing an oriented
`u × v` box at the origin corner of `fr`: the right remainder
`[fx + u, fy, fL - u, v]` is appended when `fL - u > 1e-9` and the top
remainder `[fx, fy + v, fL, fW - v]` when `fW - v > 1e-9`. -/
def splitRemainders (fr : FRect) (u v : ℚ) : List FRect :=
  (if eps < fr.L - u then [⟨fr.x + u, fr.y, fr.L - u, v⟩] else []) ++
  (if eps < fr.W - v then [⟨fr.x, fr.y + v, fr.L, fr.W - v⟩] else [])

/-- A candidate considered by `try_place`: the tuple
`(leftover_area, index, new_free_list, placement)` stored in `best`. -/
structure Best where
  leftover : ℚ
  idx : Nat
  new_free : List FRect
  pos : Pos
deriving DecidableEq, Repr

/-- Option 1 of `try_place`: the default orientation on rectangle `i`. -/
def optionUnrot (free_rects : List FRect) (Lb Wb : ℚ) (i : Nat) (fr : FRect) : Option Best :=
  if Lb ≤ fr.L ∧ Wb ≤ fr.W then
    some ⟨fr.L * fr.W - Lb * Wb, i,
      free_rects.eraseIdx i ++ splitRemainders fr Lb Wb,
      ⟨fr.x, fr.y, Lb, Wb, false⟩⟩
  else none

/-- Option 2 of `try_place`: the rotated orientation on rectangle `i`. -/
def optionRot (free_rects : List FRect) (Lb Wb : ℚ) (i : Nat) (fr : FRect) : Option Best :=
  if Wb ≤ fr.L ∧ Lb ≤ fr.W then
    some ⟨fr.L * fr.W - Lb * Wb, i,
      free_rects.eraseIdx i ++ splitRemainders fr Wb Lb,
      ⟨fr.x, fr.y, Wb, Lb, true⟩⟩
  else none

/-- The `best`-update of `try_place`:
`if best is None or leftover < best[0]: best = cand`. -/
def pickCand (b : Option Best) (c : Best) : Option Best :=
  match b with
  | none => some c
  | some b0 => if c.leftover < b0.leftover then some c else some b0

/-- The (up to two) candidates one rectangle contributes, in evaluation
order: unrotated first, rotated second. -/
def candList (free_rects : List FRect) (Lb Wb : ℚ) (i : Nat) (fr : FRect) : List Best :=
  (optionUnrot free_rects Lb Wb i fr).toList ++ (optionRot free_rects Lb Wb i fr).toList

/-- The `for i, fr in enumerate(free_rects)` loop of `try_place`. -/
def tpLoop (free_rects : List FRect) (Lb Wb : ℚ) : Nat → List FRect → Option Best → Option Best
  | _, [], best => best
  | i, fr :: rest, best =>
      tpLoop free_rects Lb Wb (i + 1) rest ((candList free_rects Lb Wb i fr).foldl pickCand best)

/-- `try_place(free_rects, dims)`: best-fit placement with rotation.
Returns `(ok, new_free_rects, placement)`. -/
def try_place (free_rects : List FRect) (Lb Wb : ℚ) : Bool × List FRect × Pos :=
  match tpLoop free_rects Lb Wb 0 free_rects none with
  | none => (false, free_rects, ⟨0, 0, 0, 0, false⟩)
  | some b => (true, b.new_free, b.pos)

/-- All candidates evaluated by the `try_place` loop from index `i` on,
in evaluation order. -/
def candsFrom (free_rects : List FRect) (Lb Wb : ℚ) : Nat → List FRect → List Best
  | _, [] => []
  | i, fr :: rest =>
      candList free_rects Lb Wb i fr ++ candsFrom free_rects Lb Wb (i + 1) rest

/-- All candidates evaluated by `try_place`, in evaluation order. -/
def candidates (free_rects : List FRect) (Lb Wb : ℚ) : List Best :=
  candsFrom free_rects Lb Wb 0 free_rects

/-- Modelled from the spec's selection rule, for comparison with the
code: "select the single candidate across all rectangles and both
orientations with the minimum leftover; ties resolve to whichever
candidate was evaluated first".  It returns the first candidate (in
evaluation order) whose leftover is no larger than every candidate's. -/
def firstBest (cs : List Best) : Option Best :=
  cs.find? (fun c => cs.all (fun c' => decide (c.leftover ≤ c'.leftover)))

/-- Stable insertion of `x` after all earlier elements `y` with `le y x`. -/
def insLe (le : α → α → Bool) (x : α) : List α → List α
  | [] => [x]
  | y :: ys => if le y x then y :: insLe le x ys else x :: y :: ys

/-- Stable insertion sort, modelling Python's stable `list.sort`. -/
def isortBy (le : α → α → Bool) (l : List α) : List α :=
  l.foldl (fun acc x => insLe le x acc) []

/-- Conversion of a `try_place` placement into the layer record
appended by `pack_one_layer`. -/
def posToPlaced (nm : String) (h : ℚ) (p : Pos) : Placed :=
  ⟨nm, p.x, p.y, p.L, p.W, h, p.rotated⟩

/-- The greedy inner loop of `pack_one_layer` for one box name:
`while order_left[nm] > 0: try_place; break on failure`.  The fuel is
instantiated with `lookupQ o nm`, which strictly decreases each
iteration, so the loop is never cut short. -/
def greedyNameF (boxes : String → BoxInfo) (nm : String) :
    Nat → List FRect → OrderMap → List Placed → List FRect × OrderMap × List Placed
  | 0, fr, o, pl => (fr, o, pl)
  | fuel + 1, fr, o, pl =>
      if 0 < lookupQ o nm then
        let r := try_place fr (boxes nm).L (boxes nm).W
        if r.1 then
          greedyNameF boxes nm fuel r.2.1 (decQ o nm)
            (pl ++ [posToPlaced nm (boxes nm).H r.2.2])
        else (fr, o, pl)
      else (fr, o, pl)

/-- The greedy phase: `for nm in valid: ...` over the sorted names. -/
def greedyAll (boxes : String → BoxInfo) :
    List String → List FRect → OrderMap → List Placed → List FRect × OrderMap × List Placed
  | [], fr, o, pl => (fr, o, pl)
  | nm :: rest, fr, o, pl =>
      let s := greedyNameF boxes nm (lookupQ o nm) fr o pl
      greedyAll boxes rest s.1 s.2.1 s.2.2

/-- The `for nm in rem_names` body of the gap-fill phase: the first
remaining name (skipping exhausted ones) that `try_place` fits into the
single rectangle `fr`. -/
def findFill (boxes : String → BoxInfo) :
    List String → OrderMap → FRect → Option (String × List FRect × Pos)
  | [], _, _ => none
  | nm :: rest, o, fr =>
      if lookupQ o nm ≤ 0 then findFill boxes rest o fr
      else
        let r := try_place [fr] (boxes nm).L (boxes nm).W
        if r.1 then some (nm, r.2.1, r.2.2) else findFill boxes rest o fr

/-- Fuel bound for the gap-fill scan: each filled step lowers
`totalQty` by one (raising the list length by at most one) and each
unfilled step advances `r`, so this quantity strictly decreases. -/
def gapFuel (o : OrderMap) (frs : List FRect) (r : Nat) : Nat :=
  3 * totalQty o + (frs.length - r)

/-- The gap-fill scan of `pack_one_layer`: `while r < len(free_rects)`,
restarting at the same index after a successful fill. -/
def gapLoopF (boxes : String → BoxInfo) (rem_names : List String) :
    Nat → Nat → List FRect → OrderMap → List Placed → List FRect × OrderMap × List Placed
  | 0, _, frs, o, pl => (frs, o, pl)
  | fuel + 1, r, frs, o, pl =>
      if r < frs.length then
        match findFill boxes rem_names o (frs.getD r ⟨0, 0, 0, 0⟩) with
        | some (nm, new_free, pos) =>
            gapLoopF boxes rem_names fuel r (frs.eraseIdx r ++ new_free) (decQ o nm)
              (pl ++ [posToPlaced nm (boxes nm).H pos])
        | none => gapLoopF boxes rem_names fuel (r + 1) frs o pl
      else (frs, o, pl)

/-- `pack_one_layer(pallet, boxes, order_left)`: greedy phase by area
descending, then gap-fill by area ascending. -/
def pack_one_layer (pal : PalletDims) (boxes : String → BoxInfo) (order_left : OrderMap) :
    List Placed × OrderMap :=
  let free_rects : List FRect := [⟨0, 0, pal.L, pal.W⟩]
  let names : List String := order_left.map Prod.fst
  let valid : List String := names.filter (fun n => decide (0 < lookupQ order_left n))
  if valid.isEmpty then ([], order_left)
  else
    let sorted := isortBy (fun a b => decide ((boxes b).Area ≤ (boxes a).Area)) valid
    let s1 := greedyAll boxes sorted free_rects order_left []
    let rem := names.filter (fun n => decide (0 < lookupQ s1.2.1 n))
    let remSorted := isortBy (fun a b => decide ((boxes a).Area ≤ (boxes b).Area)) rem
    let s2 := gapLoopF boxes remSorted (gapFuel s1.2.1 s1.1 0) 0 s1.1 s1.2.1 s1.2.2
    (s2.2.2, s2.2.1)

/-- Python `max([b['H'] for b in placed])` (`0` for an empty list, the
`if placed else 0` default of the source). -/
def maxH : List Placed → ℚ
  | [] => 0
  | p :: ps => ps.foldl (fun m q => max m q.H) p.H

/-- The layer-stacking loop of `pack_all_pallets` for one pallet:
`while current_height < max_pallet_height`.  The fuel is instantiated
with `totalQty o + 1`; every non-final iteration places at least one
box, so the fuel is never exhausted. -/
def packPalletLoopF (pal : PalletDims) (boxes : String → BoxInfo) :
    Nat → List (List Placed) → ℚ → OrderMap → List (List Placed) × OrderMap
  | 0, layer_list, _, o => (layer_list, o)
  | fuel + 1, layer_list, current_height, o =>
      if current_height < pal.H then
        if (o.filter (fun p => decide (0 < p.2))).isEmpty then (layer_list, o)
        else
          let s := pack_one_layer pal boxes o
          if s.1.isEmpty then (layer_list, s.2)
          else
            let layer_list' := layer_list ++ [s.1]
            let tallest := maxH s.1
            let ch' := current_height + tallest
            if tallest ≤ 0 then (layer_list', s.2)
            else if pal.H ≤ ch' then (layer_list', s.2)
            else packPalletLoopF pal boxes fuel layer_list' ch' s.2
      else (layer_list, o)

/-- The outer loop of `pack_all_pallets`:
`while sum(order_left.values()) > 0`, stopping as soon as a pallet
receives no layer.  Fuel `totalQty o + 1` suffices since every appended
pallet places at least one box. -/
def packAllLoopF (pal : PalletDims) (boxes : String → BoxInfo) :
    Nat → List Unit → List (List (List Placed)) → OrderMap →
      List Unit × List (List (List Placed)) × OrderMap
  | 0, pallets, pls, o => (pallets, pls, o)
  | fuel + 1, pallets, pls, o =>
      if 0 < totalQty o then
        let s := packPalletLoopF pal boxes (totalQty o + 1) [] 0 o
        if s.1.isEmpty then (pallets, pls, s.2)
        else packAllLoopF pal boxes fuel (pallets ++ [()]) (pls ++ [s.1]) s.2
      else (pallets, pls, o)

/-- The whole run of `pack_all_pallets` including the final state of
the (deep-copied) order. -/
def packRun (pal : PalletDims) (boxes : String → ℚ × ℚ × ℚ) (order : OrderMap) :
    List Unit × List (List (List Placed)) × OrderMap :=
  packAllLoopF pal (build_info boxes) (totalQty order + 1) [] [] order

/-- `pack_all_pallets(pallet, boxes, order)`: returns
`(pallets, pallet_layers)`. -/
def pack_all_pallets (pal : PalletDims) (boxes : String → ℚ × ℚ × ℚ) (order : OrderMap) :
    List Unit × List (List (List Placed)) :=
  let s := packRun pal boxes order
  (s.1, s.2.1)

/-- Concatenation of a list of lists. -/
def catLists : List (List α) → List α
  | [] => []
  | l :: ls => l ++ catLists ls

/-- All placements of a whole run, across pallets and layers. -/
def allPlacements (r : List (List (List Placed))) : List Placed :=
  catLists (catLists r)

/-- The rectangle of a placement, at its oriented footprint. -/
def rOf (p : Placed) : FRect := ⟨p.x, p.y, p.L, p.W⟩

/-- Two axis-aligned rectangles have no overlapping area. -/
def disjR (a b : FRect) : Prop :=
  a.x + a.L ≤ b.x ∨ b.x + b.L ≤ a.x ∨ a.y + a.W ≤ b.y ∨ b.y + b.W ≤ a.y

instance : DecidableRel disjR := fun a b => by unfold disjR; exact inferInstance

/-- `a` lies inside `b`. -/
def subR (a b : FRect) : Prop :=
  b.x ≤ a.x ∧ a.x + a.L ≤ b.x + b.L ∧ b.y ≤ a.y ∧ a.y + a.W ≤ b.y + b.W

instance : DecidableRel subR := fun a b => by unfold subR; exact inferInstance

/-- The rectangle lies within `[0, bounds.L] × [0, bounds.W]`. -/
def inBounds (pal : PalletDims) (a : FRect) : Prop :=
  0 ≤ a.x ∧ 0 ≤ a.y ∧ a.x + a.L ≤ pal.L ∧ a.y + a.W ≤ pal.W

instance (pal : PalletDims) : DecidablePred (inBounds pal) := fun a => by
  unfold inBounds; exact inferInstance

/-- The free-space/placement invariant of one layer: everything lies in
bounds, free rectangles and placements are pairwise area-disjoint, and
free space is disjoint from every placement. -/
structure Inv (pal : PalletDims) (free : List FRect) (pl : List Placed) : Prop where
  free_in : ∀ f ∈ free, inBounds pal f
  placed_in : ∀ p ∈ pl, inBounds pal (rOf p)
  free_disj : free.Pairwise disjR
  placed_disj : (pl.map rOf).Pairwise disjR
  free_placed : ∀ f ∈ free, ∀ p ∈ pl, disjR f (rOf p)

/-- Decidable statement that every box name of the order has a strictly
positive footprint in the catalog (the validated-input contract the
core assumes). -/
def dimsPos (boxes : String → BoxInfo) (names : List String) : Bool :=
  names.all (fun nm => decide (0 < (boxes nm).L) && decide (0 < (boxes nm).W))

/-- Decidable statement that every box name of the order has a
nonnegative height in the catalog. -/
def heightsNonneg (boxes : String → BoxInfo) (names : List String) : Bool :=
  names.all (fun nm => decide (0 ≤ (boxes nm).H))

/-- Decidable statement that `nm` is the only remaining demand of the
order: some quantity of `nm` remains and every entry under another name
is zero. -/
def onlyDemand (o : OrderMap) (nm : String) : Bool :=
  decide (0 < lookupQ o nm) && o.all (fun p => p.1 == nm || p.2 == 0)

/-- A heap of Python dict objects, for the reference-semantics reading
of `pack_all_pallets`: the caller passes its order dict by reference,
and `order_left = copy.deepcopy(order)` allocates a fresh object whose
cell receives every decrement of the run. -/
def readH (h : List OrderMap) (r : Nat) : OrderMap := h.getD r []

/-- `pack_all_pallets` at reference level: the caller's dict lives in
cell `r`; the deep copy allocates a fresh cell at the end of the heap,
and the run's decrements land in that fresh cell only. -/
def pack_all_pallets_ref (pal : PalletDims) (boxes : String → ℚ × ℚ × ℚ)
    (h : List OrderMap) (r : Nat) :
    (List Unit × List (List (List Placed))) × List OrderMap :=
  let fresh := h.length
  let h1 := h ++ [readH h r]
  let s := packRun pal boxes (readH h1 fresh)
  ((s.1, s.2.1), h1.set fresh s.2.2)

/-- Catalog of spec scenario 3 (claim C5). -/
def boxesC5 : String → ℚ × ℚ × ℚ :=
  fun nm => if nm = "A" then (10, 4, 5) else if nm = "B" then (10, 6, 5) else (1, 1, 1)

/-- Order of spec scenario 3 (claim C5). -/
def orderC5 : OrderMap := [("A", 1), ("B", 1)]

/-- Container bounds of spec scenario 3 (claim C5). -/
def palC5 : PalletDims := ⟨10, 10, 10⟩

/-- The selection property of the best-fit rule: `b` attains the
minimal leftover among `cs` and strictly beats every candidate
evaluated before it. -/
def IsFirstMin (cs : List Best) (b : Best) : Prop :=
  (∀ c ∈ cs, b.leftover ≤ c.leftover) ∧
  ∃ pre post, cs = pre ++ b :: post ∧ ∀ c ∈ pre, b.leftover < c.leftover

/-- Free rectangle of the C6 counterexample. -/
def frC6 : FRect := ⟨0, 0, 10, 1⟩

/-- Box width of the C6 counterexample: the top remainder then has
thickness `2e-10` (below the threshold) but area `2e-9` (above it). -/
def wC6 : ℚ := 1 - 2 / 10000000000

end PalletPack

namespace PalletPack

/-! ## Order-map bookkeeping -/

theorem lookupQ_decQ (o : OrderMap) (nm n : String) :
    lookupQ (decQ o nm) n = if n = nm then lookupQ o nm - 1 else lookupQ o n := by
  induction o with
  | nil => simp [decQ, lookupQ]
  | cons p ps ih =>
    simp only [decQ]
    by_cases h1 : p.1 = nm
    · rw [if_pos h1]
      by_cases h2 : p.1 = n
      · have h3 : n = nm := h2.symm.trans h1
        simp [lookupQ, h2, h3, h1]
      · have h3 : ¬ n = nm := fun hh => h2 (h1.trans hh.symm)
        simp [lookupQ, h2, h3]
    · rw [if_neg h1]
      by_cases h2 : p.1 = n
      · have h3 : ¬ n = nm := fun hh => h1 (h2.trans hh)
        simp [lookupQ, h2, h3]
      · simp [lookupQ, h2, h1, ih]

theorem keys_decQ (o : OrderMap) (nm : String) :
    (decQ o nm).map Prod.fst = o.map Prod.fst := by
  induction o with
  | nil => simp [decQ]
  | cons p ps ih =>
    by_cases h : p.1 = nm <;> simp [decQ, h, ih]

theorem totalQty_decQ (o : OrderMap) (nm : String) (h : 0 < lookupQ o nm) :
    totalQty (decQ o nm) + 1 = totalQty o := by
  induction o with
  | nil => simp [lookupQ] at h
  | cons p ps ih =>
    by_cases h1 : p.1 = nm
    · simp only [lookupQ, h1, if_pos] at h
      simp [decQ, h1, totalQty]
      omega
    · simp only [lookupQ, h1, if_neg, not_false_iff] at h
      simp [decQ, h1, totalQty] at ih ⊢
      have := ih h
      omega

theorem totalQty_decQ_le (o : OrderMap) (nm : String) :
    totalQty (decQ o nm) ≤ totalQty o := by
  induction o with
  | nil => simp [decQ]
  | cons p ps ih =>
    by_cases h : p.1 = nm <;> simp [decQ, h, totalQty] at ih ⊢ <;> omega

/-! ## The best-fit selection of `try_place` (claim C3) -/

theorem tpLoop_foldl (free_rects : List FRect) (Lb Wb : ℚ) :
    ∀ (l : List FRect) (i : Nat) (best : Option Best),
      tpLoop free_rects Lb Wb i l best = (candsFrom free_rects Lb Wb i l).foldl pickCand best := by
  intro l
  induction l with
  | nil => intro i best; simp [tpLoop, candsFrom]
  | cons fr rest ih =>
    intro i best
    simp [tpLoop, candsFrom, ih, List.foldl_append]

theorem foldl_pickCand_some (cs : List Best) :
    ∀ b : Best, ∃ r, cs.foldl pickCand (some b) = some r ∧ IsFirstMin (b :: cs) r := by
  induction cs with
  | nil =>
    intro b
    exact ⟨b, rfl, fun c hc => by simp at hc; simp [hc], [], [], rfl, by simp⟩
  | cons c rest ih =>
    intro b
    by_cases hlt : c.leftover < b.leftover
    · obtain ⟨r, hr, hmin, pre, post, hdec, hstrict⟩ := ih c
      refine ⟨r, ?_, ?_, b :: pre, post, ?_, ?_⟩
      · simpa [List.foldl_cons, pickCand, hlt] using hr
      · intro x hx
        rcases List.mem_cons.1 hx with h | h
        · subst h
          exact le_trans (hmin c (by simp)) (le_of_lt hlt)
        · exact hmin x h
      · simp [hdec]
      · intro x hx
        rcases List.mem_cons.1 hx with h | h
        · subst h
          exact lt_of_le_of_lt (hmin c (by simp)) hlt
        · exact hstrict x h
    · obtain ⟨r, hr, hmin, pre, post, hdec, hstrict⟩ := ih b
      have hble : b.leftover ≤ c.leftover := le_of_not_lt hlt
      have hrb : r.leftover ≤ b.leftover := hmin b (by simp)
      refine ⟨r, ?_, ?_, ?_⟩
      · simpa [List.foldl_cons, pickCand, hlt] using hr
      · intro x hx
        rcases List.mem_cons.1 hx with h | h
        · subst h; exact hrb
        rcases List.mem_cons.1 h with h2 | h2
        · subst h2; exact le_trans hrb hble
        · exact hmin x (by simp [h2])
      · rcases pre with _ | ⟨p0, pre'⟩
        · simp only [List.nil_append, List.cons.injEq] at hdec
          refine ⟨[], c :: rest, ?_, by simp⟩
          simp [hdec.1]
        · rw [List.cons_append] at hdec
          injection hdec with hb hrest
          have hblt : r.leftover < b.leftover := by
            rw [hb]; exact hstrict p0 (by simp)
          refine ⟨b :: c :: pre', post, ?_, ?_⟩
          · simp [hrest]
          · intro x hx
            rcases List.mem_cons.1 hx with h | h
            · subst h; exact hblt
            rcases List.mem_cons.1 h with h2 | h2
            · subst h2; exact lt_of_lt_of_le hblt hble
            · exact hstrict x (by simp [h2])

theorem find?_concat {α : Type _} (p : α → Bool) (b : α) :
    ∀ pre post : List α, (∀ x ∈ pre, p x = false) → p b = true →
      (pre ++ b :: post).find? p = some b := by
  intro pre
  induction pre with
  | nil => intro post _ hb; simp [List.find?, hb]
  | cons x xs ih =>
    intro post hpre hb
    have hx : p x = false := hpre x (by simp)
    simp only [List.cons_append, List.find?, hx]
    exact ih post (fun y hy => hpre y (by simp [hy])) hb

theorem firstBest_of_isFirstMin {cs : List Best} {r : Best} (h : IsFirstMin cs r) :
    firstBest cs = some r := by
  obtain ⟨hmin, pre, post, hdec, hstrict⟩ := h
  unfold firstBest
  subst hdec
  apply find?_concat
  · intro x hx
    have hr : ¬ (x.leftover ≤ r.leftover) := not_le.2 (hstrict x hx)
    simp only [List.all_eq_false, decide_eq_true_eq]
    exact ⟨r, by simp, hr⟩
  · simp only [List.all_eq_true, decide_eq_true_eq]
    exact hmin

theorem foldl_pickCand_none_spec (cs : List Best) :
    (cs = [] ∧ cs.foldl pickCand none = none) ∨
      ∃ r, cs.foldl pickCand none = some r ∧ IsFirstMin cs r := by
  cases cs with
  | nil => exact Or.inl ⟨rfl, rfl⟩
  | cons c rest =>
    right
    obtain ⟨r, hr, hfm⟩ := foldl_pickCand_some rest c
    exact ⟨r, by simpa [List.foldl_cons, pickCand] using hr, hfm⟩

/-- Claim C3: `try_place` returns exactly the candidate selected by the
spec's rule (minimum leftover; ties to the first candidate in
rectangle-iteration order, unrotated before rotated), and reports
not-found with the rectangle set unchanged when no candidate exists. -/
theorem C3_try_place_selects_first_minimum (free_rects : List FRect) (Lb Wb : ℚ) :
    try_place free_rects Lb Wb =
      match firstBest (candidates free_rects Lb Wb) with
      | none => (false, free_rects, ⟨0, 0, 0, 0, false⟩)
      | some b => (true, b.new_free, b.pos) := by
  unfold try_place
  rw [tpLoop_foldl free_rects Lb Wb free_rects 0 none]
  rcases foldl_pickCand_none_spec (candidates free_rects Lb Wb) with ⟨hnil, hfold⟩ | ⟨r, hfold, hfm⟩
  · rw [show candsFrom free_rects Lb Wb 0 free_rects = candidates free_rects Lb Wb from rfl]
    rw [hfold, hnil]
    rfl
  · rw [show candsFrom free_rects Lb Wb 0 free_rects = candidates free_rects Lb Wb from rfl]
    rw [hfold, firstBest_of_isFirstMin hfm]

/-! ## Geometry of the guillotine split -/

theorem disjR_symm {a b : FRect} (h : disjR a b) : disjR b a := by
  unfold disjR at h ⊢; tauto

theorem disjR_of_subR {a b c : FRect} (h : subR a b) (hd : disjR b c) : disjR a c := by
  obtain ⟨h1, h2, h3, h4⟩ := h
  rcases hd with h5 | h5 | h5 | h5
  · exact Or.inl (by linarith)
  · exact Or.inr (Or.inl (by linarith))
  · exact Or.inr (Or.inr (Or.inl (by linarith)))
  · exact Or.inr (Or.inr (Or.inr (by linarith)))

theorem inBounds_of_subR {pal : PalletDims} {a b : FRect} (h : subR a b)
    (hb : inBounds pal b) : inBounds pal a := by
  obtain ⟨h1, h2, h3, h4⟩ := h
  obtain ⟨h5, h6, h7, h8⟩ := hb
  exact ⟨by linarith, by linarith, by linarith, by linarith⟩

theorem split_cases {fr : FRect} {u v : ℚ} {g : FRect} (hg : g ∈ splitRemainders fr u v) :
    (eps < fr.L - u ∧ g = ⟨fr.x + u, fr.y, fr.L - u, v⟩) ∨
    (eps < fr.W - v ∧ g = ⟨fr.x, fr.y + v, fr.L, fr.W - v⟩) := by
  unfold splitRemainders at hg
  rcases List.mem_append.1 hg with h | h
  · split_ifs at h with hc
    · simp at h; exact Or.inl ⟨hc, h⟩
    · simp at h
  · split_ifs at h with hc
    · simp at h; exact Or.inr ⟨hc, h⟩
    · simp at h

theorem split_subR {fr : FRect} {u v : ℚ} (hu : 0 < u) (hv : 0 < v)
    (hvW : v ≤ fr.W) : ∀ g ∈ splitRemainders fr u v, subR g fr := by
  intro g hg
  rcases split_cases hg with ⟨hc, rfl⟩ | ⟨hc, rfl⟩ <;>
    exact ⟨by dsimp; linarith, by dsimp; linarith, by dsimp; linarith, by dsimp; linarith⟩

theorem split_disj_box {fr : FRect} {u v : ℚ} :
    ∀ g ∈ splitRemainders fr u v, disjR g ⟨fr.x, fr.y, u, v⟩ := by
  intro g hg
  rcases split_cases hg with ⟨hc, rfl⟩ | ⟨hc, rfl⟩
  · exact Or.inr (Or.inl (by dsimp; linarith))
  · exact Or.inr (Or.inr (Or.inr (by dsimp; linarith)))

theorem split_pairwise (fr : FRect) (u v : ℚ) :
    (splitRemainders fr u v).Pairwise disjR := by
  unfold splitRemainders
  split_ifs with h1 h2 h3
  · refine List.Pairwise.cons ?_ (by simp)
    intro g hg
    simp at hg
    subst hg
    exact Or.inr (Or.inr (Or.inl (by dsimp; linarith)))
  · simp
  · simp
  · simp

theorem box_subR {fr : FRect} {u v : ℚ} (huL : u ≤ fr.L) (hvW : v ≤ fr.W) :
    subR ⟨fr.x, fr.y, u, v⟩ fr :=
  ⟨le_refl _, by dsimp; linarith, le_refl _, by dsimp; linarith⟩

/-- One guillotine placement step preserves the layer invariant: the
consumed rectangle is replaced by its retained remainders and the new
placement is disjoint from everything that remains. -/
theorem inv_step {pal : PalletDims} {A B : List FRect} {fr : FRect} {pl : List Placed}
    {u v : ℚ} {newp : Placed}
    (hinv : Inv pal (A ++ fr :: B) pl)
    (hu : 0 < u) (hv : 0 < v) (huL : u ≤ fr.L) (hvW : v ≤ fr.W)
    (hnp : rOf newp = ⟨fr.x, fr.y, u, v⟩) :
    Inv pal ((A ++ B) ++ splitRemainders fr u v) (pl ++ [newp]) := by
  have hmemAB : ∀ g ∈ A ++ B, g ∈ A ++ fr :: B := by
    intro g hg
    rcases List.mem_append.1 hg with h | h
    · exact List.mem_append.2 (Or.inl h)
    · exact List.mem_append.2 (Or.inr (List.mem_cons_of_mem fr h))
  have hfr_mem : fr ∈ A ++ fr :: B := List.mem_append.2 (Or.inr (List.mem_cons_self fr B))
  have hfr_in : inBounds pal fr := hinv.free_in fr hfr_mem
  have hboxsub : subR ⟨fr.x, fr.y, u, v⟩ fr := box_subR huL hvW
  have hsplitsub : ∀ g ∈ splitRemainders fr u v, subR g fr := split_subR hu hv hvW
  -- disjointness of fr against the rest of the free list
  have hpw := hinv.free_disj
  rw [List.pairwise_append] at hpw
  obtain ⟨hpwA, hpwfrB, hcross⟩ := hpw
  rw [List.pairwise_cons] at hpwfrB
  obtain ⟨hfrB, hpwB⟩ := hpwfrB
  have hfr_rest : ∀ g ∈ A ++ B, disjR g fr := by
    intro g hg
    rcases List.mem_append.1 hg with h | h
    · exact hcross g h fr (List.mem_cons_self fr B)
    · exact disjR_symm (hfrB g h)
  have hAB_pw : (A ++ B).Pairwise disjR := by
    rw [List.pairwise_append]
    exact ⟨hpwA, hpwB, fun a ha b hb => hcross a ha b (List.mem_cons_of_mem fr hb)⟩
  constructor
  · -- free_in
    intro g hg
    rcases List.mem_append.1 hg with h | h
    · exact hinv.free_in g (hmemAB g h)
    · exact inBounds_of_subR (hsplitsub g h) hfr_in
  · -- placed_in
    intro p hp
    rcases List.mem_append.1 hp with h | h
    · exact hinv.placed_in p h
    · simp at h
      subst h
      rw [hnp]
      exact inBounds_of_subR hboxsub hfr_in
  · -- free_disj
    rw [List.pairwise_append]
    refine ⟨hAB_pw, split_pairwise fr u v, ?_⟩
    intro g hg s hs
    exact disjR_symm (disjR_of_subR (hsplitsub s hs) (disjR_symm (hfr_rest g hg)))
  · -- placed_disj
    rw [List.map_append, List.pairwise_append]
    refine ⟨hinv.placed_disj, by simp, ?_⟩
    intro q hq b hb
    simp only [List.map_cons, List.map_nil, List.mem_singleton] at hb
    subst hb
    rcases List.mem_map.1 hq with ⟨p, hp, rfl⟩
    rw [hnp]
    exact disjR_symm (disjR_of_subR hboxsub (hinv.free_placed fr hfr_mem p hp))
  · -- free_placed
    intro g hg p hp
    rcases List.mem_append.1 hp with h | h
    · rcases List.mem_append.1 hg with h2 | h2
      · exact hinv.free_placed g (hmemAB g h2) p h
      · exact disjR_of_subR (hsplitsub g h2) (hinv.free_placed fr hfr_mem p h)
    · simp at h
      subst h
      rw [hnp]
      rcases List.mem_append.1 hg with h2 | h2
      · exact disjR_symm (disjR_of_subR hboxsub (disjR_symm (hfr_rest g h2)))
      · exact split_disj_box g h2

/-! ## Shape of a successful `try_place` -/

theorem eraseIdx_len (P : List FRect) (fr : FRect) (R : List FRect) :
    (P ++ fr :: R).eraseIdx P.length = P ++ R := by
  induction P with
  | nil => simp [List.eraseIdx]
  | cons p ps ih => simp [List.eraseIdx, ih]

theorem candsFrom_shape {Lb Wb : ℚ} (free : List FRect) :
    ∀ (l P : List FRect), free = P ++ l →
      ∀ b ∈ candsFrom free Lb Wb P.length l,
        ∃ (A B : List FRect) (fr : FRect) (u v : ℚ) (rot : Bool),
          free = A ++ fr :: B ∧
          ((u = Lb ∧ v = Wb ∧ rot = false) ∨ (u = Wb ∧ v = Lb ∧ rot = true)) ∧
          u ≤ fr.L ∧ v ≤ fr.W ∧
          b.new_free = (A ++ B) ++ splitRemainders fr u v ∧
          b.pos = ⟨fr.x, fr.y, u, v, rot⟩ ∧
          b.leftover = fr.L * fr.W - Lb * Wb := by
  intro l
  induction l with
  | nil => intro P h b hb; simp [candsFrom] at hb
  | cons fr rest ih =>
    intro P hfree b hb
    simp only [candsFrom, List.mem_append] at hb
    rcases hb with hb | hb
    · have herase : free.eraseIdx P.length = P ++ rest := by
        rw [hfree]; exact eraseIdx_len P fr rest
      unfold candList optionUnrot optionRot at hb
      by_cases h1 : Lb ≤ fr.L ∧ Wb ≤ fr.W <;> by_cases h2 : Wb ≤ fr.L ∧ Lb ≤ fr.W <;>
        simp [h1, h2] at hb
      · rcases hb with rfl | rfl
        · exact ⟨P, rest, fr, Lb, Wb, false, hfree, Or.inl ⟨rfl, rfl, rfl⟩, h1.1, h1.2,
            by rw [herase], rfl, rfl⟩
        · exact ⟨P, rest, fr, Wb, Lb, true, hfree, Or.inr ⟨rfl, rfl, rfl⟩, h2.1, h2.2,
            by rw [herase], rfl, rfl⟩
      · subst hb
        exact ⟨P, rest, fr, Lb, Wb, false, hfree, Or.inl ⟨rfl, rfl, rfl⟩, h1.1, h1.2,
          by rw [herase], rfl, rfl⟩
      · subst hb
        exact ⟨P, rest, fr, Wb, Lb, true, hfree, Or.inr ⟨rfl, rfl, rfl⟩, h2.1, h2.2,
          by rw [herase], rfl, rfl⟩
    · have hlen : P.length + 1 = (P ++ [fr]).length := by simp
      have hfree2 : free = (P ++ [fr]) ++ rest := by simp [hfree]
      exact ih (P ++ [fr]) hfree2 b (by rw [← hlen]; exact hb)

theorem try_place_ok_shape (free : List FRect) (Lb Wb : ℚ)
    (hok : (try_place free Lb Wb).1 = true) :
    ∃ (A B : List FRect) (fr : FRect) (u v : ℚ) (rot : Bool),
      free = A ++ fr :: B ∧
      ((u = Lb ∧ v = Wb ∧ rot = false) ∨ (u = Wb ∧ v = Lb ∧ rot = true)) ∧
      u ≤ fr.L ∧ v ≤ fr.W ∧
      (try_place free Lb Wb).2.1 = (A ++ B) ++ splitRemainders fr u v ∧
      (try_place free Lb Wb).2.2 = ⟨fr.x, fr.y, u, v, rot⟩ := by
  have hfold := tpLoop_foldl free Lb Wb free 0 none
  rcases foldl_pickCand_none_spec (candidates free Lb Wb) with ⟨hnil, hf⟩ | ⟨r, hf, hfm⟩
  · exfalso
    unfold try_place at hok
    rw [hfold] at hok
    rw [show candsFrom free Lb Wb 0 free = candidates free Lb Wb from rfl, hf] at hok
    simp at hok
  · obtain ⟨hmin, pre, post, hdec, _⟩ := hfm
    have hmem : r ∈ candidates free Lb Wb := by rw [hdec]; simp
    obtain ⟨A, B, fr, u, v, rot, h1, h2, h3, h4, h5, h6, _⟩ :=
      candsFrom_shape free free [] (by simp) r hmem
    have htp : try_place free Lb Wb = (true, r.new_free, r.pos) := by
      unfold try_place
      rw [hfold]
      rw [show candsFrom free Lb Wb 0 free = candidates free Lb Wb from rfl, hf]
    exact ⟨A, B, fr, u, v, rot, h1, h2, h3, h4, by rw [htp]; exact h5, by rw [htp]; exact h6⟩

theorem try_place_fail_eq (free : List FRect) (Lb Wb : ℚ)
    (hok : (try_place free Lb Wb).1 = false) :
    try_place free Lb Wb = (false, free, ⟨0, 0, 0, 0, false⟩) := by
  have hfold := tpLoop_foldl free Lb Wb free 0 none
  rcases foldl_pickCand_none_spec (candidates free Lb Wb) with ⟨hnil, hf⟩ | ⟨r, hf, hfm⟩
  · unfold try_place
    rw [hfold, show candsFrom free Lb Wb 0 free = candidates free Lb Wb from rfl, hf]
  · exfalso
    unfold try_place at hok
    rw [hfold, show candsFrom free Lb Wb 0 free = candidates free Lb Wb from rfl, hf] at hok
    simp at hok

/-! ## Placement bookkeeping helpers -/

theorem countName_append (n : String) (pl1 pl2 : List Placed) :
    countName n (pl1 ++ pl2) = countName n pl1 + countName n pl2 := by
  unfold countName
  exact List.countP_append _ _ _

theorem countName_single (n nm : String) (h : ℚ) (pos : Pos) :
    countName n [posToPlaced nm h pos] = if n = nm then 1 else 0 := by
  simp only [countName, posToPlaced, List.countP_cons, List.countP_nil, Nat.zero_add]
  by_cases h2 : n = nm
  · simp [h2]
  · have h3 : ¬ nm = n := fun hh => h2 hh.symm
    simp [h2, h3]

theorem getD_decomp {l : List FRect} {r : Nat} (h : r < l.length) :
    ∃ P R, l = P ++ (l.getD r ⟨0, 0, 0, 0⟩) :: R ∧ P.length = r ∧ l.eraseIdx r = P ++ R := by
  induction l generalizing r with
  | nil => simp at h
  | cons a t ih =>
    cases r with
    | zero => exact ⟨[], t, by simp, rfl, by simp [List.eraseIdx]⟩
    | succ k =>
      have hk : k < t.length := by simpa using h
      obtain ⟨P', R', h1, h2, h3⟩ := ih hk
      refine ⟨a :: P', R', ?_, by simp [h2], ?_⟩
      · simpa using congrArg (a :: ·) h1
      · simpa [List.eraseIdx] using congrArg (a :: ·) h3

/-- A successful `try_place` on a free list satisfying the invariant
yields the invariant for the returned free list together with the new
placement appended. -/
theorem try_place_inv {pal : PalletDims} {free : List FRect} {pl : List Placed}
    {Lb Wb : ℚ} (hinv : Inv pal free pl) (hLb : 0 < Lb) (hWb : 0 < Wb)
    (nm : String) (hgt : ℚ)
    (hok : (try_place free Lb Wb).1 = true) :
    Inv pal (try_place free Lb Wb).2.1
      (pl ++ [posToPlaced nm hgt (try_place free Lb Wb).2.2]) := by
  obtain ⟨A, B, fr, u, v, rot, hfree, hor, huL, hvW, hnf, hpos⟩ :=
    try_place_ok_shape free Lb Wb hok
  have hu : 0 < u := by rcases hor with ⟨rfl, _, _⟩ | ⟨rfl, _, _⟩ <;> assumption
  have hv : 0 < v := by rcases hor with ⟨_, rfl, _⟩ | ⟨_, rfl, _⟩ <;> assumption
  rw [hnf]
  exact inv_step (hfree ▸ hinv) hu hv huL hvW (by rw [hpos]; rfl)

/-- A successful `try_place` on the singleton list `[fr]` produces
exactly the split remainders of `fr`. -/
theorem try_place_single_shape {fr : FRect} {Lb Wb : ℚ}
    (hok : (try_place [fr] Lb Wb).1 = true) :
    ∃ (u v : ℚ) (rot : Bool),
      ((u = Lb ∧ v = Wb ∧ rot = false) ∨ (u = Wb ∧ v = Lb ∧ rot = true)) ∧
      u ≤ fr.L ∧ v ≤ fr.W ∧
      (try_place [fr] Lb Wb).2.1 = splitRemainders fr u v ∧
      (try_place [fr] Lb Wb).2.2 = ⟨fr.x, fr.y, u, v, rot⟩ := by
  obtain ⟨A, B, fr', u, v, rot, hfree, hor, huL, hvW, hnf, hpos⟩ :=
    try_place_ok_shape [fr] Lb Wb hok
  have hA : A = [] ∧ fr' = fr ∧ B = [] := by
    cases A with
    | nil => simp at hfree; exact ⟨rfl, hfree.1.symm, hfree.2⟩
    | cons a t =>
      exfalso
      have := congrArg List.length hfree
      simp at this
  obtain ⟨rfl, rfl, rfl⟩ := hA
  exact ⟨u, v, rot, hor, huL, hvW, by simpa using hnf, hpos⟩

/-- The gap-fill step: a successful `try_place` on the `r`-th rectangle
preserves the invariant when that rectangle is removed and the returned
remainders are appended. -/
theorem gap_step_inv {pal : PalletDims} {frs : List FRect} {pl : List Placed}
    {r : Nat} {Lb Wb : ℚ} (hinv : Inv pal frs pl) (hLb : 0 < Lb) (hWb : 0 < Wb)
    (hr : r < frs.length) (nm : String) (hgt : ℚ)
    (hok : (try_place [frs.getD r ⟨0, 0, 0, 0⟩] Lb Wb).1 = true) :
    Inv pal (frs.eraseIdx r ++ (try_place [frs.getD r ⟨0, 0, 0, 0⟩] Lb Wb).2.1)
      (pl ++ [posToPlaced nm hgt (try_place [frs.getD r ⟨0, 0, 0, 0⟩] Lb Wb).2.2]) := by
  obtain ⟨P, R, hdec, hlen, herase⟩ := getD_decomp hr
  obtain ⟨u, v, rot, hor, huL, hvW, hnf, hpos⟩ := try_place_single_shape hok
  have hu : 0 < u := by rcases hor with ⟨rfl, _, _⟩ | ⟨rfl, _, _⟩ <;> assumption
  have hv : 0 < v := by rcases hor with ⟨_, rfl, _⟩ | ⟨_, rfl, _⟩ <;> assumption
  rw [hnf, herase, hpos]
  exact inv_step (hdec ▸ hinv) hu hv huL hvW rfl

/-! ## The greedy phase -/

theorem greedyNameF_keys (boxes : String → BoxInfo) (nm : String) :
    ∀ (fuel : Nat) (frs : List FRect) (o : OrderMap) (pl : List Placed),
      (greedyNameF boxes nm fuel frs o pl).2.1.map Prod.fst = o.map Prod.fst := by
  intro fuel
  induction fuel with
  | zero => intro frs o pl; simp [greedyNameF]
  | succ fuel ih =>
    intro frs o pl
    simp only [greedyNameF]
    by_cases hq : 0 < lookupQ o nm
    · simp only [if_pos hq]
      by_cases hro : (try_place frs (boxes nm).L (boxes nm).W).1 = true
      · simp only [hro, if_true]
        rw [ih]
        exact keys_decQ o nm
      · simp [hro]
    · simp [hq]

theorem greedyNameF_count (boxes : String → BoxInfo) (nm : String) :
    ∀ (fuel : Nat) (frs : List FRect) (o : OrderMap) (pl : List Placed) (n : String),
      lookupQ (greedyNameF boxes nm fuel frs o pl).2.1 n +
        countName n (greedyNameF boxes nm fuel frs o pl).2.2 =
      lookupQ o n + countName n pl := by
  intro fuel
  induction fuel with
  | zero => intro frs o pl n; simp [greedyNameF]
  | succ fuel ih =>
    intro frs o pl n
    simp only [greedyNameF]
    by_cases hq : 0 < lookupQ o nm
    · simp only [if_pos hq]
      by_cases hro : (try_place frs (boxes nm).L (boxes nm).W).1 = true
      · simp only [hro, if_true]
        rw [ih]
        rw [lookupQ_decQ, countName_append, countName_single]
        by_cases hn : n = nm
        · subst hn; simp; omega
        · simp [hn]
      · simp [hro]
    · simp [hq]

theorem greedyNameF_total (boxes : String → BoxInfo) (nm : String) :
    ∀ (fuel : Nat) (frs : List FRect) (o : OrderMap) (pl : List Placed),
      totalQty (greedyNameF boxes nm fuel frs o pl).2.1 +
        (greedyNameF boxes nm fuel frs o pl).2.2.length =
      totalQty o + pl.length := by
  intro fuel
  induction fuel with
  | zero => intro frs o pl; simp [greedyNameF]
  | succ fuel ih =>
    intro frs o pl
    simp only [greedyNameF]
    by_cases hq : 0 < lookupQ o nm
    · simp only [if_pos hq]
      by_cases hro : (try_place frs (boxes nm).L (boxes nm).W).1 = true
      · simp only [hro, if_true]
        rw [ih]
        have := totalQty_decQ o nm hq
        simp
        omega
      · simp [hro]
    · simp [hq]

theorem greedyNameF_append (boxes : String → BoxInfo) (nm : String) :
    ∀ (fuel : Nat) (frs : List FRect) (o : OrderMap) (pl : List Placed),
      ∃ new, (greedyNameF boxes nm fuel frs o pl).2.2 = pl ++ new ∧
        ∀ p ∈ new, p.name = nm ∧ p.H = (boxes nm).H := by
  intro fuel
  induction fuel with
  | zero => intro frs o pl; exact ⟨[], by simp [greedyNameF], by simp⟩
  | succ fuel ih =>
    intro frs o pl
    simp only [greedyNameF]
    by_cases hq : 0 < lookupQ o nm
    · simp only [if_pos hq]
      by_cases hro : (try_place frs (boxes nm).L (boxes nm).W).1 = true
      · simp only [hro, if_true]
        obtain ⟨new, hnew, hall⟩ := ih (try_place frs (boxes nm).L (boxes nm).W).2.1
          (decQ o nm)
          (pl ++ [posToPlaced nm (boxes nm).H (try_place frs (boxes nm).L (boxes nm).W).2.2])
        refine ⟨posToPlaced nm (boxes nm).H (try_place frs (boxes nm).L (boxes nm).W).2.2 ::
          new, ?_, ?_⟩
        · simpa using hnew
        · intro p hp
          rcases List.mem_cons.1 hp with h | h
          · subst h; exact ⟨rfl, rfl⟩
          · exact hall p h
      · exact ⟨[], by simp [hro], by simp⟩
    · exact ⟨[], by simp [hq], by simp⟩

theorem greedyNameF_inv (boxes : String → BoxInfo) (nm : String) {pal : PalletDims}
    (hL : 0 < (boxes nm).L) (hW : 0 < (boxes nm).W) :
    ∀ (fuel : Nat) (frs : List FRect) (o : OrderMap) (pl : List Placed),
      Inv pal frs pl →
      Inv pal (greedyNameF boxes nm fuel frs o pl).1 (greedyNameF boxes nm fuel frs o pl).2.2 := by
  intro fuel
  induction fuel with
  | zero => intro frs o pl hinv; simpa [greedyNameF] using hinv
  | succ fuel ih =>
    intro frs o pl hinv
    simp only [greedyNameF]
    by_cases hq : 0 < lookupQ o nm
    · simp only [if_pos hq]
      by_cases hro : (try_place frs (boxes nm).L (boxes nm).W).1 = true
      · simp only [hro, if_true]
        exact ih _ _ _ (try_place_inv hinv hL hW nm (boxes nm).H hro)
      · simpa [hro] using hinv
    · simpa [hq] using hinv

theorem mem_insLe {α : Type _} (le : α → α → Bool) (x : α) :
    ∀ (l : List α) (a : α), a ∈ insLe le x l ↔ a = x ∨ a ∈ l := by
  intro l
  induction l with
  | nil => intro a; simp [insLe]
  | cons y ys ih =>
    intro a
    unfold insLe
    by_cases h : le y x = true
    · simp [h, ih]
      tauto
    · simp [h]

theorem mem_isortBy {α : Type _} (le : α → α → Bool) :
    ∀ (l acc : List α) (a : α), a ∈ l.foldl (fun acc x => insLe le x acc) acc ↔
      a ∈ acc ∨ a ∈ l := by
  intro l
  induction l with
  | nil => intro acc a; simp
  | cons x xs ih =>
    intro acc a
    simp only [List.foldl_cons]
    rw [ih]
    simp [mem_insLe]
    tauto

theorem mem_isortBy' {α : Type _} (le : α → α → Bool) (l : List α) (a : α) :
    a ∈ isortBy le l ↔ a ∈ l := by
  unfold isortBy
  rw [mem_isortBy]
  simp

/-! ## The greedy phase over all names -/

theorem greedyAll_keys (boxes : String → BoxInfo) :
    ∀ (names : List String) (frs : List FRect) (o : OrderMap) (pl : List Placed),
      (greedyAll boxes names frs o pl).2.1.map Prod.fst = o.map Prod.fst := by
  intro names
  induction names with
  | nil => intro frs o pl; simp [greedyAll]
  | cons nm rest ih =>
    intro frs o pl
    simp only [greedyAll]
    rw [ih, greedyNameF_keys]

theorem greedyAll_count (boxes : String → BoxInfo) :
    ∀ (names : List String) (frs : List FRect) (o : OrderMap) (pl : List Placed) (n : String),
      lookupQ (greedyAll boxes names frs o pl).2.1 n +
        countName n (greedyAll boxes names frs o pl).2.2 =
      lookupQ o n + countName n pl := by
  intro names
  induction names with
  | nil => intro frs o pl n; simp [greedyAll]
  | cons nm rest ih =>
    intro frs o pl n
    simp only [greedyAll]
    rw [ih, greedyNameF_count]

theorem greedyAll_total (boxes : String → BoxInfo) :
    ∀ (names : List String) (frs : List FRect) (o : OrderMap) (pl : List Placed),
      totalQty (greedyAll boxes names frs o pl).2.1 +
        (greedyAll boxes names frs o pl).2.2.length =
      totalQty o + pl.length := by
  intro names
  induction names with
  | nil => intro frs o pl; simp [greedyAll]
  | cons nm rest ih =>
    intro frs o pl
    simp only [greedyAll]
    rw [ih, greedyNameF_total]

theorem greedyAll_append (boxes : String → BoxInfo) :
    ∀ (names : List String) (frs : List FRect) (o : OrderMap) (pl : List Placed),
      ∃ new, (greedyAll boxes names frs o pl).2.2 = pl ++ new ∧
        ∀ p ∈ new, p.name ∈ names ∧ p.H = (boxes p.name).H := by
  intro names
  induction names with
  | nil => intro frs o pl; exact ⟨[], by simp [greedyAll], by simp⟩
  | cons nm rest ih =>
    intro frs o pl
    simp only [greedyAll]
    obtain ⟨new1, hnew1, hall1⟩ := greedyNameF_append boxes nm (lookupQ o nm) frs o pl
    obtain ⟨new2, hnew2, hall2⟩ := ih (greedyNameF boxes nm (lookupQ o nm) frs o pl).1
      (greedyNameF boxes nm (lookupQ o nm) frs o pl).2.1
      (greedyNameF boxes nm (lookupQ o nm) frs o pl).2.2
    refine ⟨new1 ++ new2, by rw [hnew2, hnew1, List.append_assoc], ?_⟩
    intro p hp
    rcases List.mem_append.1 hp with h | h
    · obtain ⟨h1, h2⟩ := hall1 p h
      exact ⟨by simp [h1], by rw [h1]; exact h2⟩
    · obtain ⟨h1, h2⟩ := hall2 p h
      exact ⟨by simp [h1], h2⟩

theorem greedyAll_inv (boxes : String → BoxInfo) {pal : PalletDims} :
    ∀ (names : List String) (frs : List FRect) (o : OrderMap) (pl : List Placed),
      (∀ nm ∈ names, 0 < (boxes nm).L ∧ 0 < (boxes nm).W) →
      Inv pal frs pl →
      Inv pal (greedyAll boxes names frs o pl).1 (greedyAll boxes names frs o pl).2.2 := by
  intro names
  induction names with
  | nil => intro frs o pl _ hinv; simpa [greedyAll] using hinv
  | cons nm rest ih =>
    intro frs o pl hdims hinv
    simp only [greedyAll]
    refine ih _ _ _ (fun n hn => hdims n (by simp [hn])) ?_
    exact greedyNameF_inv boxes nm (hdims nm (by simp)).1 (hdims nm (by simp)).2
      (lookupQ o nm) frs o pl hinv

/-! ## The gap-fill phase -/

theorem findFill_some (boxes : String → BoxInfo) :
    ∀ (rem : List String) (o : OrderMap) (fr : FRect) (nm : String)
      (nf : List FRect) (pos : Pos),
      findFill boxes rem o fr = some (nm, nf, pos) →
      0 < lookupQ o nm ∧ nm ∈ rem ∧
      (try_place [fr] (boxes nm).L (boxes nm).W).1 = true ∧
      nf = (try_place [fr] (boxes nm).L (boxes nm).W).2.1 ∧
      pos = (try_place [fr] (boxes nm).L (boxes nm).W).2.2 := by
  intro rem
  induction rem with
  | nil => intro o fr nm nf pos h; simp [findFill] at h
  | cons nm' rest ih =>
    intro o fr nm nf pos h
    simp only [findFill] at h
    by_cases h1 : lookupQ o nm' ≤ 0
    · rw [if_pos h1] at h
      obtain ⟨a, b, c, d, e⟩ := ih o fr nm nf pos h
      exact ⟨a, by simp [b], c, d, e⟩
    · rw [if_neg h1] at h
      by_cases h2 : (try_place [fr] (boxes nm').L (boxes nm').W).1 = true
      · rw [if_pos h2] at h
        have h3 := Option.some.inj h
        simp only [Prod.mk.injEq] at h3
        obtain ⟨e1, e2, e3⟩ := h3
        subst e1
        exact ⟨by omega, by simp, h2, e2.symm, e3.symm⟩
      · rw [if_neg h2] at h
        obtain ⟨a, b, c, d, e⟩ := ih o fr nm nf pos h
        exact ⟨a, by simp [b], c, d, e⟩

theorem gapLoopF_keys (boxes : String → BoxInfo) (rem_names : List String) :
    ∀ (fuel r : Nat) (frs : List FRect) (o : OrderMap) (pl : List Placed),
      (gapLoopF boxes rem_names fuel r frs o pl).2.1.map Prod.fst = o.map Prod.fst := by
  intro fuel
  induction fuel with
  | zero => intro r frs o pl; simp [gapLoopF]
  | succ fuel ih =>
    intro r frs o pl
    simp only [gapLoopF]
    by_cases hr : r < frs.length
    · rw [if_pos hr]
      rcases hfind : findFill boxes rem_names o (frs.getD r ⟨0, 0, 0, 0⟩) with _ | ⟨nm, nf, pos⟩
      · simp only [hfind]
        exact ih (r + 1) frs o pl
      · simp only [hfind]
        rw [ih, keys_decQ]
    · simp [hr]

theorem gapLoopF_count (boxes : String → BoxInfo) (rem_names : List String) :
    ∀ (fuel r : Nat) (frs : List FRect) (o : OrderMap) (pl : List Placed) (n : String),
      lookupQ (gapLoopF boxes rem_names fuel r frs o pl).2.1 n +
        countName n (gapLoopF boxes rem_names fuel r frs o pl).2.2 =
      lookupQ o n + countName n pl := by
  intro fuel
  induction fuel with
  | zero => intro r frs o pl n; simp [gapLoopF]
  | succ fuel ih =>
    intro r frs o pl n
    simp only [gapLoopF]
    by_cases hr : r < frs.length
    · rw [if_pos hr]
      rcases hfind : findFill boxes rem_names o (frs.getD r ⟨0, 0, 0, 0⟩) with _ | ⟨nm, nf, pos⟩
      · simp only [hfind]
        exact ih (r + 1) frs o pl n
      · simp only [hfind]
        rw [ih]
        have hpos := (findFill_some boxes rem_names o _ nm nf pos hfind).1
        rw [lookupQ_decQ, countName_append, countName_single]
        by_cases hn : n = nm
        · subst hn; simp; omega
        · simp [hn]
    · simp [hr]

theorem gapLoopF_total (boxes : String → BoxInfo) (rem_names : List String) :
    ∀ (fuel r : Nat) (frs : List FRect) (o : OrderMap) (pl : List Placed),
      totalQty (gapLoopF boxes rem_names fuel r frs o pl).2.1 +
        (gapLoopF boxes rem_names fuel r frs o pl).2.2.length =
      totalQty o + pl.length := by
  intro fuel
  induction fuel with
  | zero => intro r frs o pl; simp [gapLoopF]
  | succ fuel ih =>
    intro r frs o pl
    simp only [gapLoopF]
    by_cases hr : r < frs.length
    · rw [if_pos hr]
      rcases hfind : findFill boxes rem_names o (frs.getD r ⟨0, 0, 0, 0⟩) with _ | ⟨nm, nf, pos⟩
      · simp only [hfind]
        exact ih (r + 1) frs o pl
      · simp only [hfind]
        rw [ih]
        have hpos := (findFill_some boxes rem_names o _ nm nf pos hfind).1
        have := totalQty_decQ o nm hpos
        simp
        omega
    · simp [hr]

theorem gapLoopF_append (boxes : String → BoxInfo) (rem_names : List String) :
    ∀ (fuel r : Nat) (frs : List FRect) (o : OrderMap) (pl : List Placed),
      ∃ new, (gapLoopF boxes rem_names fuel r frs o pl).2.2 = pl ++ new ∧
        ∀ p ∈ new, p.name ∈ rem_names ∧ p.H = (boxes p.name).H := by
  intro fuel
  induction fuel with
  | zero => intro r frs o pl; exact ⟨[], by simp [gapLoopF], by simp⟩
  | succ fuel ih =>
    intro r frs o pl
    simp only [gapLoopF]
    by_cases hr : r < frs.length
    · rw [if_pos hr]
      rcases hfind : findFill boxes rem_names o (frs.getD r ⟨0, 0, 0, 0⟩) with _ | ⟨nm, nf, pos⟩
      · simp only [hfind]
        exact ih (r + 1) frs o pl
      · simp only [hfind]
        obtain ⟨new, hnew, hall⟩ := ih r (frs.eraseIdx r ++ nf) (decQ o nm)
          (pl ++ [posToPlaced nm (boxes nm).H pos])
        have hmem := (findFill_some boxes rem_names o _ nm nf pos hfind).2.1
        refine ⟨posToPlaced nm (boxes nm).H pos :: new, by simpa using hnew, ?_⟩
        intro p hp
        rcases List.mem_cons.1 hp with h | h
        · subst h; exact ⟨hmem, rfl⟩
        · exact hall p h
    · exact ⟨[], by simp [hr], by simp⟩

theorem gapLoopF_inv (boxes : String → BoxInfo) (rem_names : List String) {pal : PalletDims}
    (hdims : ∀ nm ∈ rem_names, 0 < (boxes nm).L ∧ 0 < (boxes nm).W) :
    ∀ (fuel r : Nat) (frs : List FRect) (o : OrderMap) (pl : List Placed),
      Inv pal frs pl →
      Inv pal (gapLoopF boxes rem_names fuel r frs o pl).1
        (gapLoopF boxes rem_names fuel r frs o pl).2.2 := by
  intro fuel
  induction fuel with
  | zero => intro r frs o pl hinv; simpa [gapLoopF] using hinv
  | succ fuel ih =>
    intro r frs o pl hinv
    simp only [gapLoopF]
    by_cases hr : r < frs.length
    · rw [if_pos hr]
      rcases hfind : findFill boxes rem_names o (frs.getD r ⟨0, 0, 0, 0⟩) with _ | ⟨nm, nf, pos⟩
      · simp only [hfind]
        exact ih (r + 1) frs o pl hinv
      · simp only [hfind]
        obtain ⟨hq, hmem, hok, hnf, hpos⟩ := findFill_some boxes rem_names o _ nm nf pos hfind
        refine ih r _ _ _ ?_
        rw [hnf, hpos]
        exact gap_step_inv hinv (hdims nm hmem).1 (hdims nm hmem).2 hr nm (boxes nm).H hok
    · simpa [hr] using hinv

/-! ## `pack_one_layer` -/

theorem pack_one_layer_keys (pal : PalletDims) (boxes : String → BoxInfo) (o : OrderMap) :
    (pack_one_layer pal boxes o).2.map Prod.fst = o.map Prod.fst := by
  by_cases hcond : ((o.map Prod.fst).filter (fun n => decide (0 < lookupQ o n))).isEmpty = true
  · simp [pack_one_layer, hcond]
  · simp only [pack_one_layer]
    rw [if_neg hcond]
    dsimp only
    rw [gapLoopF_keys, greedyAll_keys]

theorem pack_one_layer_count (pal : PalletDims) (boxes : String → BoxInfo) (o : OrderMap)
    (n : String) :
    lookupQ (pack_one_layer pal boxes o).2 n + countName n (pack_one_layer pal boxes o).1 =
      lookupQ o n := by
  by_cases hcond : ((o.map Prod.fst).filter (fun n => decide (0 < lookupQ o n))).isEmpty = true
  · simp [pack_one_layer, hcond, countName]
  · simp only [pack_one_layer]
    rw [if_neg hcond]
    dsimp only
    rw [gapLoopF_count, greedyAll_count]
    simp [countName]

theorem pack_one_layer_total (pal : PalletDims) (boxes : String → BoxInfo) (o : OrderMap) :
    totalQty (pack_one_layer pal boxes o).2 + (pack_one_layer pal boxes o).1.length =
      totalQty o := by
  by_cases hcond : ((o.map Prod.fst).filter (fun n => decide (0 < lookupQ o n))).isEmpty = true
  · simp [pack_one_layer, hcond]
  · simp only [pack_one_layer]
    rw [if_neg hcond]
    dsimp only
    rw [gapLoopF_total, greedyAll_total]
    simp

theorem pack_one_layer_names (pal : PalletDims) (boxes : String → BoxInfo) (o : OrderMap) :
    ∀ p ∈ (pack_one_layer pal boxes o).1, p.name ∈ o.map Prod.fst ∧
      p.H = (boxes p.name).H := by
  by_cases hcond : ((o.map Prod.fst).filter (fun n => decide (0 < lookupQ o n))).isEmpty = true
  · simp [pack_one_layer, hcond]
  · simp only [pack_one_layer]
    rw [if_neg hcond]
    dsimp only
    intro p hp
    obtain ⟨new2, hnew2, hall2⟩ := gapLoopF_append boxes _ _ 0 _ _ _
    rw [hnew2] at hp
    rcases List.mem_append.1 hp with h | h
    · obtain ⟨new1, hnew1, hall1⟩ := greedyAll_append boxes _ _ o []
      rw [hnew1] at h
      simp only [List.nil_append] at h
      obtain ⟨h1, h2⟩ := hall1 p h
      rw [mem_isortBy'] at h1
      exact ⟨(List.mem_filter.1 h1).1, h2⟩
    · obtain ⟨h1, h2⟩ := hall2 p h
      rw [mem_isortBy'] at h1
      exact ⟨(List.mem_filter.1 h1).1, h2⟩

theorem pack_one_layer_inv (pal : PalletDims) (boxes : String → BoxInfo) (o : OrderMap)
    (hdims : ∀ nm ∈ o.map Prod.fst, 0 < (boxes nm).L ∧ 0 < (boxes nm).W) :
    ((pack_one_layer pal boxes o).1.map rOf).Pairwise disjR ∧
      ∀ p ∈ (pack_one_layer pal boxes o).1, inBounds pal (rOf p) := by
  have hinv0 : Inv pal [⟨0, 0, pal.L, pal.W⟩] [] := by
    constructor
    · intro f hf
      simp at hf
      subst hf
      exact ⟨le_refl 0, le_refl 0, by simp, by simp⟩
    · simp
    · simp
    · simp
    · simp
  by_cases hcond : ((o.map Prod.fst).filter (fun n => decide (0 < lookupQ o n))).isEmpty = true
  · simp [pack_one_layer, hcond]
  · simp only [pack_one_layer]
    rw [if_neg hcond]
    dsimp only
    have hds : ∀ nm ∈ isortBy (fun a b => decide ((boxes b).Area ≤ (boxes a).Area))
        ((o.map Prod.fst).filter (fun n => decide (0 < lookupQ o n))),
        0 < (boxes nm).L ∧ 0 < (boxes nm).W := by
      intro nm hnm
      rw [mem_isortBy'] at hnm
      exact hdims nm (List.mem_filter.1 hnm).1
    have hinv1 := greedyAll_inv boxes _ [⟨0, 0, pal.L, pal.W⟩] o [] hds hinv0
    have hdr : ∀ nm ∈ isortBy (fun a b => decide ((boxes a).Area ≤ (boxes b).Area))
        ((o.map Prod.fst).filter (fun n => decide (0 <
          lookupQ (greedyAll boxes
            (isortBy (fun a b => decide ((boxes b).Area ≤ (boxes a).Area))
              ((o.map Prod.fst).filter (fun n => decide (0 < lookupQ o n))))
            [⟨0, 0, pal.L, pal.W⟩] o []).2.1 n))),
        0 < (boxes nm).L ∧ 0 < (boxes nm).W := by
      intro nm hnm
      rw [mem_isortBy'] at hnm
      exact hdims nm (List.mem_filter.1 hnm).1
    exact ⟨(gapLoopF_inv boxes _ hdr _ 0 _ _ _ hinv1).placed_disj,
      (gapLoopF_inv boxes _ hdr _ 0 _ _ _ hinv1).placed_in⟩

/-! ## `pack_all_pallets`: the layer-stacking loop -/

theorem catLists_append {α : Type _} (a b : List (List α)) :
    catLists (a ++ b) = catLists a ++ catLists b := by
  induction a with
  | nil => simp [catLists]
  | cons l ls ih => simp [catLists, ih]

theorem catLists_singleton {α : Type _} (l : List α) : catLists [l] = l := by
  simp [catLists]

theorem catLists_len_pos {α : Type _} (L : List (List α)) (hne : L ≠ [])
    (hlays : ∀ lay ∈ L, lay ≠ []) : 1 ≤ (catLists L).length := by
  cases L with
  | nil => exact absurd rfl hne
  | cons lay rest =>
    have h1 : lay ≠ [] := hlays lay (by simp)
    cases lay with
    | nil => exact absurd rfl h1
    | cons p ps => simp [catLists]

theorem packPalletLoopF_count (pal : PalletDims) (boxes : String → BoxInfo) :
    ∀ (fuel : Nat) (ll : List (List Placed)) (ch : ℚ) (o : OrderMap) (n : String),
      lookupQ (packPalletLoopF pal boxes fuel ll ch o).2 n +
        countName n (catLists (packPalletLoopF pal boxes fuel ll ch o).1) =
      lookupQ o n + countName n (catLists ll) := by
  intro fuel
  induction fuel with
  | zero => intro ll ch o n; simp [packPalletLoopF]
  | succ fuel ih =>
    intro ll ch o n
    simp only [packPalletLoopF]
    by_cases hg : ch < pal.H
    · rw [if_pos hg]
      by_cases hrem : (o.filter (fun p => decide (0 < p.2))).isEmpty = true
      · simp [hrem]
      · rw [if_neg hrem]
        have hcnt := pack_one_layer_count pal boxes o n
        by_cases hpe : (pack_one_layer pal boxes o).1.isEmpty = true
        · rw [if_pos hpe]
          rw [List.isEmpty_iff] at hpe
          rw [hpe, countName] at hcnt
          simp at hcnt
          dsimp only
          omega
        · rw [if_neg hpe]
          by_cases ht : maxH (pack_one_layer pal boxes o).1 ≤ 0
          · rw [if_pos ht]
            dsimp only
            rw [catLists_append, countName_append, catLists_singleton]
            omega
          · rw [if_neg ht]
            by_cases hh : pal.H ≤ ch + maxH (pack_one_layer pal boxes o).1
            · rw [if_pos hh]
              dsimp only
              rw [catLists_append, countName_append, catLists_singleton]
              omega
            · rw [if_neg hh]
              rw [ih]
              rw [catLists_append, countName_append, catLists_singleton]
              omega
    · simp [hg]

theorem packPalletLoopF_total (pal : PalletDims) (boxes : String → BoxInfo) :
    ∀ (fuel : Nat) (ll : List (List Placed)) (ch : ℚ) (o : OrderMap),
      totalQty (packPalletLoopF pal boxes fuel ll ch o).2 +
        (catLists (packPalletLoopF pal boxes fuel ll ch o).1).length =
      totalQty o + (catLists ll).length := by
  intro fuel
  induction fuel with
  | zero => intro ll ch o; simp [packPalletLoopF]
  | succ fuel ih =>
    intro ll ch o
    simp only [packPalletLoopF]
    by_cases hg : ch < pal.H
    · rw [if_pos hg]
      by_cases hrem : (o.filter (fun p => decide (0 < p.2))).isEmpty = true
      · simp [hrem]
      · rw [if_neg hrem]
        have hcnt := pack_one_layer_total pal boxes o
        by_cases hpe : (pack_one_layer pal boxes o).1.isEmpty = true
        · rw [if_pos hpe]
          rw [List.isEmpty_iff] at hpe
          rw [hpe] at hcnt
          simp at hcnt
          dsimp only
          omega
        · rw [if_neg hpe]
          by_cases ht : maxH (pack_one_layer pal boxes o).1 ≤ 0
          · rw [if_pos ht]
            dsimp only
            rw [catLists_append, catLists_singleton]
            simp
            omega
          · rw [if_neg ht]
            by_cases hh : pal.H ≤ ch + maxH (pack_one_layer pal boxes o).1
            · rw [if_pos hh]
              dsimp only
              rw [catLists_append, catLists_singleton]
              simp
              omega
            · rw [if_neg hh]
              rw [ih]
              rw [catLists_append, catLists_singleton]
              simp
              omega
    · simp [hg]

theorem packPalletLoopF_keys (pal : PalletDims) (boxes : String → BoxInfo) :
    ∀ (fuel : Nat) (ll : List (List Placed)) (ch : ℚ) (o : OrderMap),
      (packPalletLoopF pal boxes fuel ll ch o).2.map Prod.fst = o.map Prod.fst := by
  intro fuel
  induction fuel with
  | zero => intro ll ch o; simp [packPalletLoopF]
  | succ fuel ih =>
    intro ll ch o
    simp only [packPalletLoopF]
    by_cases hg : ch < pal.H
    · rw [if_pos hg]
      by_cases hrem : (o.filter (fun p => decide (0 < p.2))).isEmpty = true
      · simp [hrem]
      · rw [if_neg hrem]
        have hk := pack_one_layer_keys pal boxes o
        by_cases hpe : (pack_one_layer pal boxes o).1.isEmpty = true
        · rw [if_pos hpe]; exact hk
        · rw [if_neg hpe]
          by_cases ht : maxH (pack_one_layer pal boxes o).1 ≤ 0
          · rw [if_pos ht]; exact hk
          · rw [if_neg ht]
            by_cases hh : pal.H ≤ ch + maxH (pack_one_layer pal boxes o).1
            · rw [if_pos hh]; exact hk
            · rw [if_neg hh]; rw [ih, hk]
    · simp [hg]

theorem packPalletLoopF_append (pal : PalletDims) (boxes : String → BoxInfo) :
    ∀ (fuel : Nat) (ll : List (List Placed)) (ch : ℚ) (o : OrderMap),
      ∃ new, (packPalletLoopF pal boxes fuel ll ch o).1 = ll ++ new := by
  intro fuel
  induction fuel with
  | zero => intro ll ch o; exact ⟨[], by simp [packPalletLoopF]⟩
  | succ fuel ih =>
    intro ll ch o
    simp only [packPalletLoopF]
    by_cases hg : ch < pal.H
    · rw [if_pos hg]
      by_cases hrem : (o.filter (fun p => decide (0 < p.2))).isEmpty = true
      · exact ⟨[], by simp [hrem]⟩
      · rw [if_neg hrem]
        by_cases hpe : (pack_one_layer pal boxes o).1.isEmpty = true
        · exact ⟨[], by simp [hpe]⟩
        · rw [if_neg hpe]
          by_cases ht : maxH (pack_one_layer pal boxes o).1 ≤ 0
          · exact ⟨[(pack_one_layer pal boxes o).1], by simp [ht]⟩
          · rw [if_neg ht]
            by_cases hh : pal.H ≤ ch + maxH (pack_one_layer pal boxes o).1
            · exact ⟨[(pack_one_layer pal boxes o).1], by simp [hh]⟩
            · rw [if_neg hh]
              obtain ⟨new, hnew⟩ := ih (ll ++ [(pack_one_layer pal boxes o).1])
                (ch + maxH (pack_one_layer pal boxes o).1) (pack_one_layer pal boxes o).2
              exact ⟨(pack_one_layer pal boxes o).1 :: new, by rw [hnew, List.append_assoc]; rfl⟩
    · exact ⟨[], by simp [hg]⟩

theorem packPalletLoopF_layers (pal : PalletDims) (boxes : String → BoxInfo) :
    ∀ (fuel : Nat) (ll : List (List Placed)) (ch : ℚ) (o : OrderMap),
      (∀ nm ∈ o.map Prod.fst, 0 < (boxes nm).L ∧ 0 < (boxes nm).W) →
      ∀ lay ∈ (packPalletLoopF pal boxes fuel ll ch o).1,
        lay ∈ ll ∨
        (lay ≠ [] ∧ ((lay.map rOf).Pairwise disjR) ∧
          ∀ p ∈ lay, inBounds pal (rOf p) ∧ p.name ∈ o.map Prod.fst ∧
            p.H = (boxes p.name).H) := by
  intro fuel
  induction fuel with
  | zero => intro ll ch o _ lay hlay; simp only [packPalletLoopF] at hlay; exact Or.inl hlay
  | succ fuel ih =>
    intro ll ch o hdims lay hlay
    simp only [packPalletLoopF] at hlay
    by_cases hg : ch < pal.H
    · rw [if_pos hg] at hlay
      by_cases hrem : (o.filter (fun p => decide (0 < p.2))).isEmpty = true
      · rw [if_pos hrem] at hlay; exact Or.inl hlay
      · rw [if_neg hrem] at hlay
        have hnewlay : ∀ l2 ∈ [(pack_one_layer pal boxes o).1],
            (pack_one_layer pal boxes o).1.isEmpty = false →
            l2 ≠ [] ∧ ((l2.map rOf).Pairwise disjR) ∧
              ∀ p ∈ l2, inBounds pal (rOf p) ∧ p.name ∈ o.map Prod.fst ∧
                p.H = (boxes p.name).H := by
          intro l2 hl2 hne
          simp at hl2
          subst hl2
          obtain ⟨hpw, hin⟩ := pack_one_layer_inv pal boxes o hdims
          refine ⟨?_, hpw, ?_⟩
          · intro hc
            rw [hc] at hne
            simp at hne
          · intro p hp
            obtain ⟨h1, h2⟩ := pack_one_layer_names pal boxes o p hp
            exact ⟨hin p hp, h1, h2⟩
        by_cases hpe : (pack_one_layer pal boxes o).1.isEmpty = true
        · rw [if_pos hpe] at hlay; exact Or.inl hlay
        · rw [if_neg hpe] at hlay
          have hpe' : (pack_one_layer pal boxes o).1.isEmpty = false :=
            Bool.eq_false_iff.2 hpe
          by_cases ht : maxH (pack_one_layer pal boxes o).1 ≤ 0
          · rw [if_pos ht] at hlay
            dsimp only at hlay
            rcases List.mem_append.1 hlay with h | h
            · exact Or.inl h
            · exact Or.inr (hnewlay lay h hpe')
          · rw [if_neg ht] at hlay
            by_cases hh : pal.H ≤ ch + maxH (pack_one_layer pal boxes o).1
            · rw [if_pos hh] at hlay
              dsimp only at hlay
              rcases List.mem_append.1 hlay with h | h
              · exact Or.inl h
              · exact Or.inr (hnewlay lay h hpe')
            · rw [if_neg hh] at hlay
              have hdims2 : ∀ nm ∈ (pack_one_layer pal boxes o).2.map Prod.fst,
                  0 < (boxes nm).L ∧ 0 < (boxes nm).W := by
                rw [pack_one_layer_keys]; exact hdims
              have := ih (ll ++ [(pack_one_layer pal boxes o).1])
                (ch + maxH (pack_one_layer pal boxes o).1)
                (pack_one_layer pal boxes o).2 hdims2 lay hlay
              rcases this with h | h
              · rcases List.mem_append.1 h with h2 | h2
                · exact Or.inl h2
                · exact Or.inr (hnewlay lay h2 hpe')
              · refine Or.inr ⟨h.1, h.2.1, ?_⟩
                intro p hp
                obtain ⟨h1, h2, h3⟩ := h.2.2 p hp
                rw [pack_one_layer_keys] at h2
                exact ⟨h1, h2, h3⟩
    · rw [if_neg hg] at hlay; exact Or.inl hlay

theorem packPalletLoopF_height (pal : PalletDims) (boxes : String → BoxInfo) :
    ∀ (fuel : Nat) (ll : List (List Placed)) (ch : ℚ) (o : OrderMap),
      ch = (ll.map maxH).sum →
      (ll = [] ∨ ((ll.dropLast.map maxH).sum < pal.H)) →
      ((packPalletLoopF pal boxes fuel ll ch o).1 = [] ∨
        (((packPalletLoopF pal boxes fuel ll ch o).1.dropLast.map maxH).sum < pal.H)) := by
  intro fuel
  induction fuel with
  | zero => intro ll ch o _ h2; simpa [packPalletLoopF] using h2
  | succ fuel ih =>
    intro ll ch o h1 h2
    simp only [packPalletLoopF]
    by_cases hg : ch < pal.H
    · rw [if_pos hg]
      have hdrop : (ll ++ [(pack_one_layer pal boxes o).1]).dropLast = ll := by
        rw [List.dropLast_concat]
      have hnew2 : (ll ++ [(pack_one_layer pal boxes o).1]) = [] ∨
          (((ll ++ [(pack_one_layer pal boxes o).1]).dropLast.map maxH).sum < pal.H) := by
        right
        rw [hdrop, ← h1]
        exact hg
      by_cases hrem : (o.filter (fun p => decide (0 < p.2))).isEmpty = true
      · rw [if_pos hrem]; exact h2
      · rw [if_neg hrem]
        by_cases hpe : (pack_one_layer pal boxes o).1.isEmpty = true
        · rw [if_pos hpe]; exact h2
        · rw [if_neg hpe]
          by_cases ht : maxH (pack_one_layer pal boxes o).1 ≤ 0
          · rw [if_pos ht]
            exact hnew2
          · rw [if_neg ht]
            by_cases hh : pal.H ≤ ch + maxH (pack_one_layer pal boxes o).1
            · rw [if_pos hh]
              exact hnew2
            · rw [if_neg hh]
              refine ih _ _ _ ?_ hnew2
              rw [List.map_append, List.sum_append, ← h1]
              simp [maxH]
    · rw [if_neg hg]; exact h2

theorem packPalletLoopF_nonempty (pal : PalletDims) (boxes : String → BoxInfo) :
    ∀ (fuel : Nat) (ll : List (List Placed)) (ch : ℚ) (o : OrderMap),
      (∀ lay ∈ ll, lay ≠ []) →
      ∀ lay ∈ (packPalletLoopF pal boxes fuel ll ch o).1, lay ≠ [] := by
  intro fuel
  induction fuel with
  | zero => intro ll ch o hll lay hlay; exact hll lay (by simpa [packPalletLoopF] using hlay)
  | succ fuel ih =>
    intro ll ch o hll lay hlay
    simp only [packPalletLoopF] at hlay
    by_cases hg : ch < pal.H
    · rw [if_pos hg] at hlay
      by_cases hrem : (o.filter (fun p => decide (0 < p.2))).isEmpty = true
      · rw [if_pos hrem] at hlay; exact hll lay hlay
      · rw [if_neg hrem] at hlay
        by_cases hpe : (pack_one_layer pal boxes o).1.isEmpty = true
        · rw [if_pos hpe] at hlay; exact hll lay hlay
        · rw [if_neg hpe] at hlay
          have hll2 : ∀ l2 ∈ ll ++ [(pack_one_layer pal boxes o).1], l2 ≠ [] := by
            intro l2 hl2
            rcases List.mem_append.1 hl2 with h | h
            · exact hll l2 h
            · simp at h
              subst h
              intro hc
              rw [hc] at hpe
              simp at hpe
          by_cases ht : maxH (pack_one_layer pal boxes o).1 ≤ 0
          · rw [if_pos ht] at hlay; exact hll2 lay hlay
          · rw [if_neg ht] at hlay
            by_cases hh : pal.H ≤ ch + maxH (pack_one_layer pal boxes o).1
            · rw [if_pos hh] at hlay; exact hll2 lay hlay
            · rw [if_neg hh] at hlay
              exact ih _ _ _ hll2 lay hlay
    · rw [if_neg hg] at hlay; exact hll lay hlay

theorem packPalletLoopF_names (pal : PalletDims) (boxes : String → BoxInfo) :
    ∀ (fuel : Nat) (ll : List (List Placed)) (ch : ℚ) (o : OrderMap),
      ∀ lay ∈ (packPalletLoopF pal boxes fuel ll ch o).1,
        lay ∈ ll ∨ ∀ p ∈ lay, p.name ∈ o.map Prod.fst ∧ p.H = (boxes p.name).H := by
  intro fuel
  induction fuel with
  | zero => intro ll ch o lay hlay; exact Or.inl (by simpa [packPalletLoopF] using hlay)
  | succ fuel ih =>
    intro ll ch o lay hlay
    simp only [packPalletLoopF] at hlay
    by_cases hg : ch < pal.H
    · rw [if_pos hg] at hlay
      by_cases hrem : (o.filter (fun p => decide (0 < p.2))).isEmpty = true
      · rw [if_pos hrem] at hlay; exact Or.inl hlay
      · rw [if_neg hrem] at hlay
        have hnl : ∀ l2 ∈ [(pack_one_layer pal boxes o).1],
            ∀ p ∈ l2, p.name ∈ o.map Prod.fst ∧ p.H = (boxes p.name).H := by
          intro l2 hl2 p hp
          simp at hl2
          subst hl2
          exact pack_one_layer_names pal boxes o p hp
        by_cases hpe : (pack_one_layer pal boxes o).1.isEmpty = true
        · rw [if_pos hpe] at hlay; exact Or.inl hlay
        · rw [if_neg hpe] at hlay
          by_cases ht : maxH (pack_one_layer pal boxes o).1 ≤ 0
          · rw [if_pos ht] at hlay
            rcases List.mem_append.1 hlay with h | h
            · exact Or.inl h
            · exact Or.inr (hnl lay h)
          · rw [if_neg ht] at hlay
            by_cases hh : pal.H ≤ ch + maxH (pack_one_layer pal boxes o).1
            · rw [if_pos hh] at hlay
              rcases List.mem_append.1 hlay with h | h
              · exact Or.inl h
              · exact Or.inr (hnl lay h)
            · rw [if_neg hh] at hlay
              rcases ih _ _ _ lay hlay with h | h
              · rcases List.mem_append.1 h with h2 | h2
                · exact Or.inl h2
                · exact Or.inr (hnl lay h2)
              · refine Or.inr ?_
                intro p hp
                obtain ⟨h1, h2⟩ := h p hp
                rw [pack_one_layer_keys] at h1
                exact ⟨h1, h2⟩
    · rw [if_neg hg] at hlay; exact Or.inl hlay

/-! ## `pack_all_pallets`: the outer loop -/

theorem packAllLoopF_count (pal : PalletDims) (boxes : String → BoxInfo) :
    ∀ (fuel : Nat) (pallets : List Unit) (pls : List (List (List Placed))) (o : OrderMap)
      (n : String),
      lookupQ (packAllLoopF pal boxes fuel pallets pls o).2.2 n +
        countName n (allPlacements (packAllLoopF pal boxes fuel pallets pls o).2.1) =
      lookupQ o n + countName n (allPlacements pls) := by
  intro fuel
  induction fuel with
  | zero => intro pallets pls o n; simp [packAllLoopF]
  | succ fuel ih =>
    intro pallets pls o n
    simp only [packAllLoopF]
    by_cases hq : 0 < totalQty o
    · rw [if_pos hq]
      have hcnt := packPalletLoopF_count pal boxes (totalQty o + 1) [] 0 o n
      by_cases hpe : (packPalletLoopF pal boxes (totalQty o + 1) [] 0 o).1.isEmpty = true
      · rw [if_pos hpe]
        rw [List.isEmpty_iff] at hpe
        rw [hpe] at hcnt
        simp [catLists, countName] at hcnt
        dsimp only
        simp [countName] at hcnt ⊢
        omega
      · rw [if_neg hpe]
        rw [ih]
        unfold allPlacements
        rw [catLists_append, catLists_singleton, catLists_append, countName_append]
        have h0 : countName n (catLists ([] : List (List Placed))) = 0 := rfl
        rw [h0] at hcnt
        omega
    · simp [hq]

theorem packAllLoopF_total (pal : PalletDims) (boxes : String → BoxInfo) :
    ∀ (fuel : Nat) (pallets : List Unit) (pls : List (List (List Placed))) (o : OrderMap),
      totalQty (packAllLoopF pal boxes fuel pallets pls o).2.2 +
        (allPlacements (packAllLoopF pal boxes fuel pallets pls o).2.1).length =
      totalQty o + (allPlacements pls).length := by
  intro fuel
  induction fuel with
  | zero => intro pallets pls o; simp [packAllLoopF]
  | succ fuel ih =>
    intro pallets pls o
    simp only [packAllLoopF]
    by_cases hq : 0 < totalQty o
    · rw [if_pos hq]
      have hcnt := packPalletLoopF_total pal boxes (totalQty o + 1) [] 0 o
      by_cases hpe : (packPalletLoopF pal boxes (totalQty o + 1) [] 0 o).1.isEmpty = true
      · rw [if_pos hpe]
        rw [List.isEmpty_iff] at hpe
        rw [hpe] at hcnt
        simp [catLists] at hcnt
        dsimp only
        omega
      · rw [if_neg hpe]
        rw [ih]
        unfold allPlacements
        rw [catLists_append, catLists_singleton, catLists_append]
        simp [catLists] at hcnt
        simp
        omega
    · simp [hq]

theorem packAllLoopF_lens (pal : PalletDims) (boxes : String → BoxInfo) :
    ∀ (fuel : Nat) (pallets : List Unit) (pls : List (List (List Placed))) (o : OrderMap),
      pallets.length = pls.length →
      (packAllLoopF pal boxes fuel pallets pls o).1.length =
        (packAllLoopF pal boxes fuel pallets pls o).2.1.length := by
  intro fuel
  induction fuel with
  | zero => intro pallets pls o h; simpa [packAllLoopF] using h
  | succ fuel ih =>
    intro pallets pls o h
    simp only [packAllLoopF]
    by_cases hq : 0 < totalQty o
    · rw [if_pos hq]
      by_cases hpe : (packPalletLoopF pal boxes (totalQty o + 1) [] 0 o).1.isEmpty = true
      · rw [if_pos hpe]; exact h
      · rw [if_neg hpe]
        exact ih _ _ _ (by simp [h])
    · simp [hq, h]

theorem packAllLoopF_bound (pal : PalletDims) (boxes : String → BoxInfo) :
    ∀ (fuel : Nat) (pallets : List Unit) (pls : List (List (List Placed))) (o : OrderMap),
      (packAllLoopF pal boxes fuel pallets pls o).2.1.length +
        totalQty (packAllLoopF pal boxes fuel pallets pls o).2.2 ≤
      pls.length + totalQty o := by
  intro fuel
  induction fuel with
  | zero => intro pallets pls o; simp [packAllLoopF]
  | succ fuel ih =>
    intro pallets pls o
    simp only [packAllLoopF]
    by_cases hq : 0 < totalQty o
    · rw [if_pos hq]
      have htot := packPalletLoopF_total pal boxes (totalQty o + 1) [] 0 o
      by_cases hpe : (packPalletLoopF pal boxes (totalQty o + 1) [] 0 o).1.isEmpty = true
      · rw [if_pos hpe]
        dsimp only
        simp [catLists] at htot
        omega
      · rw [if_neg hpe]
        have hne : (packPalletLoopF pal boxes (totalQty o + 1) [] 0 o).1 ≠ [] := by
          intro hc
          rw [hc] at hpe
          simp at hpe
        have hlays : ∀ lay ∈ (packPalletLoopF pal boxes (totalQty o + 1) [] 0 o).1,
            lay ≠ [] :=
          packPalletLoopF_nonempty pal boxes _ [] 0 o (by simp)
        have hge := catLists_len_pos _ hne hlays
        have h1 : totalQty (packPalletLoopF pal boxes (totalQty o + 1) [] 0 o).2 + 1 ≤
            totalQty o := by
          simp [catLists] at htot
          omega
        have := ih (pallets ++ [()])
          (pls ++ [(packPalletLoopF pal boxes (totalQty o + 1) [] 0 o).1])
          (packPalletLoopF pal boxes (totalQty o + 1) [] 0 o).2
        simp at this
        omega
    · simp [hq]

theorem packAllLoopF_pallet_facts (pal : PalletDims) (boxes : String → BoxInfo) :
    ∀ (fuel : Nat) (pallets : List Unit) (pls : List (List (List Placed))) (o : OrderMap),
      ∀ L ∈ (packAllLoopF pal boxes fuel pallets pls o).2.1,
        L ∈ pls ∨
        (L ≠ [] ∧ (∀ lay ∈ L, lay ≠ []) ∧ (((L.dropLast.map maxH).sum < pal.H)) ∧
          ∀ lay ∈ L, ∀ p ∈ lay, p.name ∈ o.map Prod.fst ∧ p.H = (boxes p.name).H) := by
  intro fuel
  induction fuel with
  | zero => intro pallets pls o L hL; exact Or.inl (by simpa [packAllLoopF] using hL)
  | succ fuel ih =>
    intro pallets pls o L hL
    simp only [packAllLoopF] at hL
    by_cases hq : 0 < totalQty o
    · rw [if_pos hq] at hL
      by_cases hpe : (packPalletLoopF pal boxes (totalQty o + 1) [] 0 o).1.isEmpty = true
      · rw [if_pos hpe] at hL; exact Or.inl hL
      · rw [if_neg hpe] at hL
        have hnewL : L = (packPalletLoopF pal boxes (totalQty o + 1) [] 0 o).1 →
            L ≠ [] ∧ (∀ lay ∈ L, lay ≠ []) ∧ (((L.dropLast.map maxH).sum < pal.H)) ∧
              ∀ lay ∈ L, ∀ p ∈ lay, p.name ∈ o.map Prod.fst ∧ p.H = (boxes p.name).H := by
          intro hLe
          subst hLe
          refine ⟨?_, packPalletLoopF_nonempty pal boxes _ [] 0 o (by simp), ?_, ?_⟩
          · intro hc
            rw [hc] at hpe
            simp at hpe
          · have := packPalletLoopF_height pal boxes (totalQty o + 1) [] 0 o (by simp)
              (Or.inl rfl)
            rcases this with h | h
            · exact absurd h (by intro hc; rw [hc] at hpe; simp at hpe)
            · exact h
          · intro lay hlay p hp
            rcases packPalletLoopF_names pal boxes (totalQty o + 1) [] 0 o lay hlay with h | h
            · simp at h
            · exact h p hp
        rcases ih (pallets ++ [()])
          (pls ++ [(packPalletLoopF pal boxes (totalQty o + 1) [] 0 o).1])
          (packPalletLoopF pal boxes (totalQty o + 1) [] 0 o).2 L hL with h | h
        · rcases List.mem_append.1 h with h2 | h2
          · exact Or.inl h2
          · simp at h2
            exact Or.inr (hnewL h2)
        · refine Or.inr ⟨h.1, h.2.1, h.2.2.1, ?_⟩
          intro lay hlay p hp
          obtain ⟨h1, h2⟩ := h.2.2.2 lay hlay p hp
          rw [packPalletLoopF_keys] at h1
          exact ⟨h1, h2⟩
    · rw [if_neg hq] at hL; exact Or.inl hL

theorem packAllLoopF_geom (pal : PalletDims) (boxes : String → BoxInfo) :
    ∀ (fuel : Nat) (pallets : List Unit) (pls : List (List (List Placed))) (o : OrderMap),
      (∀ nm ∈ o.map Prod.fst, 0 < (boxes nm).L ∧ 0 < (boxes nm).W) →
      ∀ L ∈ (packAllLoopF pal boxes fuel pallets pls o).2.1,
        L ∈ pls ∨
        ∀ lay ∈ L, ((lay.map rOf).Pairwise disjR) ∧ ∀ p ∈ lay, inBounds pal (rOf p) := by
  intro fuel
  induction fuel with
  | zero => intro pallets pls o _ L hL; exact Or.inl (by simpa [packAllLoopF] using hL)
  | succ fuel ih =>
    intro pallets pls o hdims L hL
    simp only [packAllLoopF] at hL
    by_cases hq : 0 < totalQty o
    · rw [if_pos hq] at hL
      by_cases hpe : (packPalletLoopF pal boxes (totalQty o + 1) [] 0 o).1.isEmpty = true
      · rw [if_pos hpe] at hL; exact Or.inl hL
      · rw [if_neg hpe] at hL
        have hnewL : ∀ lay ∈ (packPalletLoopF pal boxes (totalQty o + 1) [] 0 o).1,
            ((lay.map rOf).Pairwise disjR) ∧ ∀ p ∈ lay, inBounds pal (rOf p) := by
          intro lay hlay
          rcases packPalletLoopF_layers pal boxes (totalQty o + 1) [] 0 o hdims lay hlay
            with h | h
          · simp at h
          · exact ⟨h.2.1, fun p hp => (h.2.2 p hp).1⟩
        have hdims2 : ∀ nm ∈ (packPalletLoopF pal boxes (totalQty o + 1) [] 0 o).2.map
            Prod.fst, 0 < (boxes nm).L ∧ 0 < (boxes nm).W := by
          rw [packPalletLoopF_keys]; exact hdims
        rcases ih (pallets ++ [()])
          (pls ++ [(packPalletLoopF pal boxes (totalQty o + 1) [] 0 o).1])
          (packPalletLoopF pal boxes (totalQty o + 1) [] 0 o).2 hdims2 L hL with h | h
        · rcases List.mem_append.1 h with h2 | h2
          · exact Or.inl h2
          · simp at h2
            subst h2
            exact Or.inr hnewL
        · exact Or.inr h
    · rw [if_neg hq] at hL; exact Or.inl hL

/-! ## Assorted conversions -/

theorem dimsPos_iff (boxes : String → BoxInfo) (names : List String) :
    dimsPos boxes names = true ↔
      ∀ nm ∈ names, 0 < (boxes nm).L ∧ 0 < (boxes nm).W := by
  simp [dimsPos, List.all_eq_true, Bool.and_eq_true, decide_eq_true_eq]

theorem heightsNonneg_iff (boxes : String → BoxInfo) (names : List String) :
    heightsNonneg boxes names = true ↔ ∀ nm ∈ names, 0 ≤ (boxes nm).H := by
  simp [heightsNonneg, List.all_eq_true, decide_eq_true_eq]

theorem mem_catLists {α : Type _} {p : α} :
    ∀ {M : List (List α)}, p ∈ catLists M ↔ ∃ l ∈ M, p ∈ l := by
  intro M
  induction M with
  | nil => simp [catLists]
  | cons l ls ih => simp [catLists, List.mem_append, ih]

theorem foldl_maxH_init (ps : List Placed) : ∀ a : ℚ, a ≤ ps.foldl (fun m q => max m q.H) a := by
  induction ps with
  | nil => intro a; simp
  | cons q t ih =>
    intro a
    simp only [List.foldl_cons]
    exact le_trans (le_max_left a q.H) (ih (max a q.H))

theorem maxH_nonneg (lay : List Placed) (hne : lay ≠ []) (hh : ∀ p ∈ lay, 0 ≤ p.H) :
    0 ≤ maxH lay := by
  cases lay with
  | nil => exact absurd rfl hne
  | cons p ps =>
    exact le_trans (hh p (by simp)) (foldl_maxH_init ps p.H)

theorem sum_take_mono (l : List ℚ) (hl : ∀ x ∈ l, 0 ≤ x) (k : Nat) :
    (l.take k).sum ≤ (l.take (k + 1)).sum := by
  rw [List.take_succ, List.sum_append]
  have h0 : 0 ≤ (l[k]?).toList.sum := by
    cases hk : l[k]? with
    | none => simp
    | some a =>
      simp only [Option.toList_some, List.sum_cons, List.sum_nil, add_zero]
      have ha : a ∈ l := by
        rw [List.getElem?_eq_some] at hk
        obtain ⟨hlt, he⟩ := hk
        exact he ▸ List.getElem_mem hlt
      exact hl a ha
  linarith

theorem pack_all_pallets_eq (pal : PalletDims) (boxes : String → ℚ × ℚ × ℚ) (order : OrderMap) :
    pack_all_pallets pal boxes order =
      ((packRun pal boxes order).1, (packRun pal boxes order).2.1) := rfl

/-! ## Fuel stabilisation of the outer loop -/

theorem packAllLoopF_succ (pal : PalletDims) (boxes : String → BoxInfo) :
    ∀ (fuel : Nat) (pallets : List Unit) (pls : List (List (List Placed))) (o : OrderMap),
      totalQty o + 1 ≤ fuel →
      packAllLoopF pal boxes (fuel + 1) pallets pls o =
        packAllLoopF pal boxes fuel pallets pls o := by
  intro fuel
  induction fuel with
  | zero => intro pallets pls o h; omega
  | succ k ih =>
    intro pallets pls o h
    conv_lhs => rw [packAllLoopF]
    conv_rhs => rw [packAllLoopF]
    by_cases hq : 0 < totalQty o
    · rw [if_pos hq, if_pos hq]
      have htot := packPalletLoopF_total pal boxes (totalQty o + 1) [] 0 o
      by_cases hpe : (packPalletLoopF pal boxes (totalQty o + 1) [] 0 o).1.isEmpty = true
      · rw [if_pos hpe, if_pos hpe]
      · rw [if_neg hpe, if_neg hpe]
        have hne : (packPalletLoopF pal boxes (totalQty o + 1) [] 0 o).1 ≠ [] := by
          intro hc; rw [hc] at hpe; simp at hpe
        have hlays := packPalletLoopF_nonempty pal boxes (totalQty o + 1) [] 0 o (by simp)
        have hge := catLists_len_pos _ hne hlays
        have hdec : totalQty (packPalletLoopF pal boxes (totalQty o + 1) [] 0 o).2 + 1 ≤
            totalQty o := by
          simp [catLists] at htot
          omega
        exact ih _ _ _ (by omega)
    · rw [if_neg hq, if_neg hq]

theorem packAllLoopF_stable (pal : PalletDims) (boxes : String → BoxInfo)
    (pallets : List Unit) (pls : List (List (List Placed))) (o : OrderMap) :
    ∀ fuel : Nat, totalQty o + 1 ≤ fuel →
      packAllLoopF pal boxes fuel pallets pls o =
        packAllLoopF pal boxes (totalQty o + 1) pallets pls o := by
  intro fuel
  induction fuel with
  | zero => intro h; omega
  | succ k ih =>
    intro h
    by_cases hk : totalQty o + 1 ≤ k
    · rw [packAllLoopF_succ pal boxes k pallets pls o hk]
      exact ih hk
    · have : totalQty o + 1 = k + 1 := by omega
      rw [this]

/-! ## The claim theorems on whole runs -/

/-- Claim C1: in each layer produced by `pack_one_layer` (for bounds
with positive length and width and a catalog of positive footprints,
the validated-input contract of the core), any two placements'
axis-aligned rectangles have no overlapping area, across both the
greedy and the gap-fill phase. -/
theorem C1_layer_non_overlap (pal : PalletDims) (boxes : String → BoxInfo) (o : OrderMap)
    (hL : 0 < pal.L) (hW : 0 < pal.W)
    (hdims : dimsPos boxes (o.map Prod.fst) = true) :
    ((pack_one_layer pal boxes o).1.map rOf).Pairwise disjR :=
  (pack_one_layer_inv pal boxes o ((dimsPos_iff boxes (o.map Prod.fst)).1 hdims)).1

/-- Claim C2: in the result of `pack_all_pallets`, the number of
placements of each box name equals the amount decremented from that
name's order quantity (initial minus final), and never exceeds the
originally requested quantity. -/
theorem C2_conservation (pal : PalletDims) (boxes : String → ℚ × ℚ × ℚ) (order : OrderMap)
    (nm : String) :
    countName nm (allPlacements (pack_all_pallets pal boxes order).2) +
        lookupQ (packRun pal boxes order).2.2 nm = lookupQ order nm ∧
    countName nm (allPlacements (pack_all_pallets pal boxes order).2) ≤ lookupQ order nm := by
  have h := packAllLoopF_count pal (build_info boxes) (totalQty order + 1) [] [] order nm
  have h0 : countName nm (allPlacements ([] : List (List (List Placed)))) = 0 := rfl
  rw [h0] at h
  rw [pack_all_pallets_eq]
  dsimp only
  unfold packRun
  constructor
  · omega
  · omega

/-- Claim C4: every placement in the output of `pack_all_pallets` (for
bounds with positive length and width and a catalog of positive
footprints) lies within `[0, bounds.L] × [0, bounds.W]`. -/
theorem C4_containment (pal : PalletDims) (boxes : String → ℚ × ℚ × ℚ) (order : OrderMap)
    (hL : 0 < pal.L) (hW : 0 < pal.W)
    (hdims : dimsPos (build_info boxes) (order.map Prod.fst) = true)
    (p : Placed) (hp : p ∈ allPlacements (pack_all_pallets pal boxes order).2) :
    inBounds pal (rOf p) := by
  rw [pack_all_pallets_eq] at hp
  dsimp only at hp
  unfold allPlacements at hp
  rw [mem_catLists] at hp
  obtain ⟨lay, hlay, hp2⟩ := hp
  rw [mem_catLists] at hlay
  obtain ⟨L, hL2, hlay2⟩ := hlay
  have := packAllLoopF_geom pal (build_info boxes) (totalQty order + 1) [] [] order
    ((dimsPos_iff _ _).1 hdims) L hL2
  rcases this with h | h
  · simp at h
  · exact (h lay hlay2).2 p hp2

/-- Claim C7: within one pallet built by `pack_all_pallets`, each
layer is nonempty and contributes the maximum placed height of its
placements, the running sum of contributions is non-decreasing (heights
being nonnegative), and the running sum immediately before the last
accepted layer is strictly below the height budget. -/
theorem C7_heights (pal : PalletDims) (boxes : String → ℚ × ℚ × ℚ) (order : OrderMap)
    (hts : heightsNonneg (build_info boxes) (order.map Prod.fst) = true)
    (L : List (List Placed)) (hL : L ∈ (pack_all_pallets pal boxes order).2) :
    L ≠ [] ∧ (∀ lay ∈ L, lay ≠ []) ∧
    (∀ k : Nat, ((L.map maxH).take k).sum ≤ ((L.map maxH).take (k + 1)).sum) ∧
    ((L.dropLast.map maxH).sum < pal.H) := by
  rw [pack_all_pallets_eq] at hL
  dsimp only at hL
  have := packAllLoopF_pallet_facts pal (build_info boxes) (totalQty order + 1) [] [] order L hL
  rcases this with h | ⟨h1, h2, h3, h4⟩
  · simp at h
  · refine ⟨h1, h2, ?_, h3⟩
    intro k
    apply sum_take_mono
    intro x hx
    rcases List.mem_map.1 hx with ⟨lay, hlay, rfl⟩
    apply maxH_nonneg lay (h2 lay hlay)
    intro p hp
    obtain ⟨hn, hH⟩ := h4 lay hlay p hp
    rw [hH]
    exact (heightsNonneg_iff _ _).1 hts p.name hn

/-- Claim C9: `pack_all_pallets` terminates within a number of
iterations bounded by the initial total order quantity: the number of
pallets and the number of placements are both at most
`totalQty order`, and giving the driver loop any fuel beyond
`totalQty order + 1` does not change the run (the loop has already
stopped on its own). -/
theorem C9_termination (pal : PalletDims) (boxes : String → ℚ × ℚ × ℚ) (order : OrderMap) :
    (pack_all_pallets pal boxes order).1.length ≤ totalQty order ∧
    (allPlacements (pack_all_pallets pal boxes order).2).length ≤ totalQty order ∧
    ∀ fuel : Nat, totalQty order + 1 ≤ fuel →
      packAllLoopF pal (build_info boxes) fuel [] [] order = packRun pal boxes order := by
  rw [pack_all_pallets_eq]
  dsimp only
  refine ⟨?_, ?_, ?_⟩
  · have hlens := packAllLoopF_lens pal (build_info boxes) (totalQty order + 1) [] [] order rfl
    have hbound := packAllLoopF_bound pal (build_info boxes) (totalQty order + 1) [] [] order
    unfold packRun
    simp at hbound
    omega
  · have htot := packAllLoopF_total pal (build_info boxes) (totalQty order + 1) [] [] order
    have h0 : (allPlacements ([] : List (List (List Placed)))).length = 0 := rfl
    rw [h0] at htot
    unfold packRun
    omega
  · intro fuel hf
    unfold packRun
    exact packAllLoopF_stable pal (build_info boxes) [] [] order fuel hf

/-! ## Oversized boxes (claim C8) -/

theorem lookupQ_le_totalQty (o : OrderMap) (n : String) : lookupQ o n ≤ totalQty o := by
  induction o with
  | nil => simp [lookupQ, totalQty]
  | cons p ps ih =>
    simp only [lookupQ, totalQty, List.map_cons, List.sum_cons]
    simp only [totalQty] at ih
    by_cases h : p.1 = n
    · rw [if_pos h]; omega
    · rw [if_neg h]; omega

theorem candsFrom_big_nil {pal : PalletDims} (free : List FRect) (Lb Wb : ℚ)
    (big1 : pal.L < Lb ∨ pal.W < Wb) (big2 : pal.L < Wb ∨ pal.W < Lb) :
    ∀ (l : List FRect) (i : Nat), (∀ fr ∈ l, inBounds pal fr) →
      candsFrom free Lb Wb i l = [] := by
  intro l
  induction l with
  | nil => intro i _; simp [candsFrom]
  | cons fr rest ih =>
    intro i hin
    have hfr := hin fr (by simp)
    obtain ⟨hx, hy, hxl, hyw⟩ := hfr
    have hL : fr.L ≤ pal.L := by linarith
    have hW : fr.W ≤ pal.W := by linarith
    have h1 : ¬ (Lb ≤ fr.L ∧ Wb ≤ fr.W) := by
      rcases big1 with h | h
      · intro hc; linarith [hc.1]
      · intro hc; linarith [hc.2]
    have h2 : ¬ (Wb ≤ fr.L ∧ Lb ≤ fr.W) := by
      rcases big2 with h | h
      · intro hc; linarith [hc.1]
      · intro hc; linarith [hc.2]
    simp only [candsFrom, candList, optionUnrot, optionRot, if_neg h1, if_neg h2]
    simp only [Option.toList_none, List.nil_append]
    exact ih (i + 1) (fun g hg => hin g (by simp [hg]))

theorem try_place_big {pal : PalletDims} (free : List FRect) (Lb Wb : ℚ)
    (hin : ∀ fr ∈ free, inBounds pal fr)
    (big1 : pal.L < Lb ∨ pal.W < Wb) (big2 : pal.L < Wb ∨ pal.W < Lb) :
    try_place free Lb Wb = (false, free, ⟨0, 0, 0, 0, false⟩) := by
  unfold try_place
  rw [tpLoop_foldl free Lb Wb free 0 none]
  rw [candsFrom_big_nil free Lb Wb big1 big2 free 0 hin]
  rfl

theorem greedyNameF_nm_eq {pal : PalletDims} (boxes : String → BoxInfo) (nm : String)
    (big1 : pal.L < (boxes nm).L ∨ pal.W < (boxes nm).W)
    (big2 : pal.L < (boxes nm).W ∨ pal.W < (boxes nm).L) :
    ∀ (fuel : Nat) (frs : List FRect) (o : OrderMap) (pl : List Placed),
      (∀ fr ∈ frs, inBounds pal fr) →
      greedyNameF boxes nm fuel frs o pl = (frs, o, pl) := by
  intro fuel frs o pl hin
  cases fuel with
  | zero => simp [greedyNameF]
  | succ fuel =>
    simp only [greedyNameF]
    by_cases hq : 0 < lookupQ o nm
    · rw [if_pos hq]
      rw [try_place_big frs (boxes nm).L (boxes nm).W hin big1 big2]
      simp
    · rw [if_neg hq]

theorem greedyNameF_other (boxes : String → BoxInfo) {pal : PalletDims} (nm m : String)
    (hne : m ≠ nm) (hL : 0 < (boxes m).L) (hW : 0 < (boxes m).W) :
    ∀ (fuel : Nat) (frs : List FRect) (o : OrderMap) (pl : List Placed),
      Inv pal frs pl →
      lookupQ (greedyNameF boxes m fuel frs o pl).2.1 nm = lookupQ o nm ∧
      countName nm (greedyNameF boxes m fuel frs o pl).2.2 = countName nm pl := by
  intro fuel
  induction fuel with
  | zero => intro frs o pl _; simp [greedyNameF]
  | succ fuel ih =>
    intro frs o pl hinv
    simp only [greedyNameF]
    by_cases hq : 0 < lookupQ o m
    · rw [if_pos hq]
      by_cases hro : (try_place frs (boxes m).L (boxes m).W).1 = true
      · simp only [hro, if_true]
        obtain ⟨h1, h2⟩ := ih _ _ _ (try_place_inv hinv hL hW m (boxes m).H hro)
        refine ⟨?_, ?_⟩
        · rw [h1, lookupQ_decQ, if_neg (fun hh => hne hh.symm)]
        · rw [h2, countName_append, countName_single, if_neg (fun hh => hne hh.symm)]
          omega
      · simp [hro]
    · simp [hq]

theorem greedyAll_big (boxes : String → BoxInfo) {pal : PalletDims} (nm : String)
    (big1 : pal.L < (boxes nm).L ∨ pal.W < (boxes nm).W)
    (big2 : pal.L < (boxes nm).W ∨ pal.W < (boxes nm).L) :
    ∀ (names : List String) (frs : List FRect) (o : OrderMap) (pl : List Placed),
      (∀ m ∈ names, 0 < (boxes m).L ∧ 0 < (boxes m).W) →
      Inv pal frs pl →
      lookupQ (greedyAll boxes names frs o pl).2.1 nm = lookupQ o nm ∧
      countName nm (greedyAll boxes names frs o pl).2.2 = countName nm pl := by
  intro names
  induction names with
  | nil => intro frs o pl _ _; simp [greedyAll]
  | cons m rest ih =>
    intro frs o pl hdims hinv
    simp only [greedyAll]
    by_cases hm : m = nm
    · subst hm
      rw [greedyNameF_nm_eq boxes m big1 big2 _ frs o pl hinv.free_in]
      exact ih frs o pl (fun x hx => hdims x (by simp [hx])) hinv
    · have hinv2 := greedyNameF_inv boxes m (hdims m (by simp)).1 (hdims m (by simp)).2
        (lookupQ o m) frs o pl hinv
      obtain ⟨h1, h2⟩ := greedyNameF_other boxes nm m hm (hdims m (by simp)).1
        (hdims m (by simp)).2 (lookupQ o m) frs o pl hinv
      obtain ⟨h3, h4⟩ := ih _ _ _ (fun x hx => hdims x (by simp [hx])) hinv2
      exact ⟨h3.trans h1, h4.trans h2⟩

theorem gapLoopF_big (boxes : String → BoxInfo) {pal : PalletDims} (nm : String)
    (rem_names : List String)
    (big1 : pal.L < (boxes nm).L ∨ pal.W < (boxes nm).W)
    (big2 : pal.L < (boxes nm).W ∨ pal.W < (boxes nm).L)
    (hdims : ∀ m ∈ rem_names, 0 < (boxes m).L ∧ 0 < (boxes m).W) :
    ∀ (fuel r : Nat) (frs : List FRect) (o : OrderMap) (pl : List Placed),
      Inv pal frs pl →
      lookupQ (gapLoopF boxes rem_names fuel r frs o pl).2.1 nm = lookupQ o nm ∧
      countName nm (gapLoopF boxes rem_names fuel r frs o pl).2.2 = countName nm pl := by
  intro fuel
  induction fuel with
  | zero => intro r frs o pl _; simp [gapLoopF]
  | succ fuel ih =>
    intro r frs o pl hinv
    simp only [gapLoopF]
    by_cases hr : r < frs.length
    · rw [if_pos hr]
      rcases hfind : findFill boxes rem_names o (frs.getD r ⟨0, 0, 0, 0⟩) with _ | ⟨m, nf, pos⟩
      · simp only [hfind]
        exact ih (r + 1) frs o pl hinv
      · simp only [hfind]
        obtain ⟨hq, hmem, hok, hnf, hpos⟩ := findFill_some boxes rem_names o _ m nf pos hfind
        have hmne : m ≠ nm := by
          intro hc
          subst hc
          obtain ⟨P, R, hdec, hlen, herase⟩ := getD_decomp hr
          set fr0 := frs.getD r (⟨0, 0, 0, 0⟩ : FRect) with hfr0
          have hfrmem : fr0 ∈ frs := by rw [hdec]; simp
          have hbig : try_place [fr0] (boxes m).L (boxes m).W =
              (false, [fr0], ⟨0, 0, 0, 0, false⟩) := by
            apply try_place_big
            · intro fr hfr
              simp at hfr
              subst hfr
              exact hinv.free_in fr0 hfrmem
            · exact big1
            · exact big2
          rw [hbig] at hok
          simp at hok
        have hinv2 : Inv pal (frs.eraseIdx r ++ nf)
            (pl ++ [posToPlaced m (boxes m).H pos]) := by
          rw [hnf, hpos]
          exact gap_step_inv hinv (hdims m hmem).1 (hdims m hmem).2 hr m (boxes m).H hok
        obtain ⟨h1, h2⟩ := ih r _ _ _ hinv2
        refine ⟨?_, ?_⟩
        · rw [h1, lookupQ_decQ, if_neg (fun hh => hmne hh.symm)]
        · rw [h2, countName_append, countName_single, if_neg (fun hh => hmne hh.symm)]
          omega
    · simp [hr]

theorem pack_one_layer_big (pal : PalletDims) (boxes : String → BoxInfo) (o : OrderMap)
    (nm : String)
    (hdims : ∀ m ∈ o.map Prod.fst, 0 < (boxes m).L ∧ 0 < (boxes m).W)
    (big1 : pal.L < (boxes nm).L ∨ pal.W < (boxes nm).W)
    (big2 : pal.L < (boxes nm).W ∨ pal.W < (boxes nm).L) :
    lookupQ (pack_one_layer pal boxes o).2 nm = lookupQ o nm ∧
    countName nm (pack_one_layer pal boxes o).1 = 0 := by
  have hinv0 : Inv pal [⟨0, 0, pal.L, pal.W⟩] [] := by
    constructor
    · intro f hf
      simp at hf
      subst hf
      exact ⟨le_refl 0, le_refl 0, by simp, by simp⟩
    · simp
    · simp
    · simp
    · simp
  by_cases hcond : ((o.map Prod.fst).filter (fun n => decide (0 < lookupQ o n))).isEmpty = true
  · simp [pack_one_layer, hcond, countName]
  · simp only [pack_one_layer]
    rw [if_neg hcond]
    dsimp only
    have hds : ∀ m ∈ isortBy (fun a b => decide ((boxes b).Area ≤ (boxes a).Area))
        ((o.map Prod.fst).filter (fun n => decide (0 < lookupQ o n))),
        0 < (boxes m).L ∧ 0 < (boxes m).W := by
      intro m hm
      rw [mem_isortBy'] at hm
      exact hdims m (List.mem_filter.1 hm).1
    obtain ⟨hg1, hg2⟩ := greedyAll_big boxes nm big1 big2 _ [⟨0, 0, pal.L, pal.W⟩] o [] hds hinv0
    have hinv1 := greedyAll_inv boxes _ [⟨0, 0, pal.L, pal.W⟩] o [] hds hinv0
    have hdr : ∀ m ∈ isortBy (fun a b => decide ((boxes a).Area ≤ (boxes b).Area))
        ((o.map Prod.fst).filter (fun n => decide (0 <
          lookupQ (greedyAll boxes
            (isortBy (fun a b => decide ((boxes b).Area ≤ (boxes a).Area))
              ((o.map Prod.fst).filter (fun n => decide (0 < lookupQ o n))))
            [⟨0, 0, pal.L, pal.W⟩] o []).2.1 n))),
        0 < (boxes m).L ∧ 0 < (boxes m).W := by
      intro m hm
      rw [mem_isortBy'] at hm
      exact hdims m (List.mem_filter.1 hm).1
    obtain ⟨hh1, hh2⟩ := gapLoopF_big boxes nm _ big1 big2 hdr _ 0 _ _ _ hinv1
    refine ⟨hh1.trans hg1, ?_⟩
    rw [hh2, hg2]
    rfl

theorem packPalletLoopF_big (pal : PalletDims) (boxes : String → BoxInfo) (nm : String)
    (big1 : pal.L < (boxes nm).L ∨ pal.W < (boxes nm).W)
    (big2 : pal.L < (boxes nm).W ∨ pal.W < (boxes nm).L) :
    ∀ (fuel : Nat) (ll : List (List Placed)) (ch : ℚ) (o : OrderMap),
      (∀ m ∈ o.map Prod.fst, 0 < (boxes m).L ∧ 0 < (boxes m).W) →
      lookupQ (packPalletLoopF pal boxes fuel ll ch o).2 nm = lookupQ o nm ∧
      countName nm (catLists (packPalletLoopF pal boxes fuel ll ch o).1) =
        countName nm (catLists ll) := by
  intro fuel
  induction fuel with
  | zero => intro ll ch o _; simp [packPalletLoopF]
  | succ fuel ih =>
    intro ll ch o hdims
    simp only [packPalletLoopF]
    by_cases hg : ch < pal.H
    · rw [if_pos hg]
      by_cases hrem : (o.filter (fun p => decide (0 < p.2))).isEmpty = true
      · simp [hrem]
      · rw [if_neg hrem]
        obtain ⟨hb1, hb2⟩ := pack_one_layer_big pal boxes o nm hdims big1 big2
        by_cases hpe : (pack_one_layer pal boxes o).1.isEmpty = true
        · rw [if_pos hpe]
          exact ⟨hb1, rfl⟩
        · rw [if_neg hpe]
          by_cases ht : maxH (pack_one_layer pal boxes o).1 ≤ 0
          · rw [if_pos ht]
            dsimp only
            rw [catLists_append, countName_append, catLists_singleton, hb2]
            exact ⟨hb1, rfl⟩
          · rw [if_neg ht]
            by_cases hh : pal.H ≤ ch + maxH (pack_one_layer pal boxes o).1
            · rw [if_pos hh]
              dsimp only
              rw [catLists_append, countName_append, catLists_singleton, hb2]
              exact ⟨hb1, rfl⟩
            · rw [if_neg hh]
              have hdims2 : ∀ m ∈ (pack_one_layer pal boxes o).2.map Prod.fst,
                  0 < (boxes m).L ∧ 0 < (boxes m).W := by
                rw [pack_one_layer_keys]; exact hdims
              obtain ⟨hr1, hr2⟩ := ih (ll ++ [(pack_one_layer pal boxes o).1])
                (ch + maxH (pack_one_layer pal boxes o).1) (pack_one_layer pal boxes o).2 hdims2
              refine ⟨hr1.trans hb1, ?_⟩
              rw [hr2, catLists_append, countName_append, catLists_singleton, hb2]
              omega
    · simp [hg]

theorem packAllLoopF_big (pal : PalletDims) (boxes : String → BoxInfo) (nm : String)
    (big1 : pal.L < (boxes nm).L ∨ pal.W < (boxes nm).W)
    (big2 : pal.L < (boxes nm).W ∨ pal.W < (boxes nm).L) :
    ∀ (fuel : Nat) (pallets : List Unit) (pls : List (List (List Placed))) (o : OrderMap),
      (∀ m ∈ o.map Prod.fst, 0 < (boxes m).L ∧ 0 < (boxes m).W) →
      lookupQ (packAllLoopF pal boxes fuel pallets pls o).2.2 nm = lookupQ o nm ∧
      countName nm (allPlacements (packAllLoopF pal boxes fuel pallets pls o).2.1) =
        countName nm (allPlacements pls) := by
  intro fuel
  induction fuel with
  | zero => intro pallets pls o _; simp [packAllLoopF]
  | succ fuel ih =>
    intro pallets pls o hdims
    simp only [packAllLoopF]
    by_cases hq : 0 < totalQty o
    · rw [if_pos hq]
      obtain ⟨hb1, hb2⟩ := packPalletLoopF_big pal boxes nm big1 big2 (totalQty o + 1) [] 0 o
        hdims
      by_cases hpe : (packPalletLoopF pal boxes (totalQty o + 1) [] 0 o).1.isEmpty = true
      · rw [if_pos hpe]
        exact ⟨hb1, rfl⟩
      · rw [if_neg hpe]
        have hdims2 : ∀ m ∈ (packPalletLoopF pal boxes (totalQty o + 1) [] 0 o).2.map
            Prod.fst, 0 < (boxes m).L ∧ 0 < (boxes m).W := by
          rw [packPalletLoopF_keys]; exact hdims
        obtain ⟨hr1, hr2⟩ := ih (pallets ++ [()])
          (pls ++ [(packPalletLoopF pal boxes (totalQty o + 1) [] 0 o).1])
          (packPalletLoopF pal boxes (totalQty o + 1) [] 0 o).2 hdims2
        refine ⟨hr1.trans hb1, ?_⟩
        rw [hr2]
        unfold allPlacements
        rw [catLists_append, catLists_singleton, catLists_append, countName_append]
        have h0 : countName nm (catLists ([] : List (List Placed))) = 0 := rfl
        rw [h0] at hb2
        omega
    · simp [hq]

/-! ## Sole remaining oversized demand ends the run -/

theorem lookupQ_pos_entry (o : OrderMap) (n : String) (h : 0 < lookupQ o n) :
    ∃ p ∈ o, p.1 = n ∧ 0 < p.2 := by
  induction o with
  | nil => simp [lookupQ] at h
  | cons p ps ih =>
    simp only [lookupQ] at h
    by_cases hp : p.1 = n
    · rw [if_pos hp] at h
      exact ⟨p, by simp, hp, h⟩
    · rw [if_neg hp] at h
      obtain ⟨q, hq1, hq2, hq3⟩ := ih h
      exact ⟨q, by simp [hq1], hq2, hq3⟩

theorem greedyAll_allnm {pal : PalletDims} (boxes : String → BoxInfo) (nm : String)
    (big1 : pal.L < (boxes nm).L ∨ pal.W < (boxes nm).W)
    (big2 : pal.L < (boxes nm).W ∨ pal.W < (boxes nm).L) :
    ∀ (names : List String) (frs : List FRect) (o : OrderMap) (pl : List Placed),
      (∀ m ∈ names, m = nm) → (∀ fr ∈ frs, inBounds pal fr) →
      greedyAll boxes names frs o pl = (frs, o, pl) := by
  intro names
  induction names with
  | nil => intro frs o pl _ _; simp [greedyAll]
  | cons m rest ih =>
    intro frs o pl hall hin
    have hm : m = nm := hall m (by simp)
    subst hm
    simp only [greedyAll]
    rw [greedyNameF_nm_eq boxes m big1 big2 (lookupQ o m) frs o pl hin]
    exact ih frs o pl (fun x hx => hall x (by simp [hx])) hin

theorem findFill_allnm {pal : PalletDims} (boxes : String → BoxInfo) (nm : String)
    (big1 : pal.L < (boxes nm).L ∨ pal.W < (boxes nm).W)
    (big2 : pal.L < (boxes nm).W ∨ pal.W < (boxes nm).L)
    (o : OrderMap) (fr : FRect) (hin : inBounds pal fr) :
    ∀ rem : List String, (∀ m ∈ rem, m = nm) → findFill boxes rem o fr = none := by
  intro rem
  induction rem with
  | nil => intro _; simp [findFill]
  | cons m rest ih =>
    intro hall
    have hm : m = nm := hall m (by simp)
    subst hm
    simp only [findFill]
    have hbig : try_place [fr] (boxes m).L (boxes m).W =
        (false, [fr], ⟨0, 0, 0, 0, false⟩) := by
      apply try_place_big
      · intro g hg
        simp at hg
        subst hg
        exact hin
      · exact big1
      · exact big2
    by_cases h1 : lookupQ o m ≤ 0
    · rw [if_pos h1]
      exact ih (fun x hx => hall x (by simp [hx]))
    · rw [if_neg h1, hbig]
      simp only [Bool.false_eq_true, if_false]
      exact ih (fun x hx => hall x (by simp [hx]))

theorem gapLoopF_none (boxes : String → BoxInfo) (rem_names : List String) :
    ∀ (fuel r : Nat) (frs : List FRect) (o : OrderMap) (pl : List Placed),
      (∀ fr ∈ frs, findFill boxes rem_names o fr = none) →
      gapLoopF boxes rem_names fuel r frs o pl = (frs, o, pl) := by
  intro fuel
  induction fuel with
  | zero => intro r frs o pl _; simp [gapLoopF]
  | succ fuel ih =>
    intro r frs o pl hnone
    simp only [gapLoopF]
    by_cases hr : r < frs.length
    · rw [if_pos hr]
      obtain ⟨P, R, hdec, hlen, herase⟩ := getD_decomp hr
      have hmem : frs.getD r ⟨0, 0, 0, 0⟩ ∈ frs := by
        set fr0 := frs.getD r (⟨0, 0, 0, 0⟩ : FRect) with hfr0
        rw [hdec]
        simp
      rw [hnone _ hmem]
      exact ih (r + 1) frs o pl hnone
    · simp [hr]

theorem pack_one_layer_only (pal : PalletDims) (boxes : String → BoxInfo) (o : OrderMap)
    (nm : String) (honly : onlyDemand o nm = true)
    (big1 : pal.L < (boxes nm).L ∨ pal.W < (boxes nm).W)
    (big2 : pal.L < (boxes nm).W ∨ pal.W < (boxes nm).L) :
    pack_one_layer pal boxes o = ([], o) := by
  have hzero : ∀ p ∈ o, p.1 = nm ∨ p.2 = 0 := by
    unfold onlyDemand at honly
    rw [Bool.and_eq_true] at honly
    have h2 := honly.2
    rw [List.all_eq_true] at h2
    intro p hp
    have h3 := h2 p hp
    rw [Bool.or_eq_true] at h3
    rcases h3 with h | h
    · exact Or.inl (by simpa using h)
    · exact Or.inr (by simpa using h)
  have hval : ∀ o2 : OrderMap, (∀ p ∈ o2, p.1 = nm ∨ p.2 = 0) →
      ∀ n ∈ (o.map Prod.fst).filter (fun n => decide (0 < lookupQ o2 n)), n = nm := by
    intro o2 hz2 n hn
    have hq : 0 < lookupQ o2 n := by
      have := (List.mem_filter.1 hn).2
      simpa using this
    obtain ⟨p, hp1, hp2, hp3⟩ := lookupQ_pos_entry o2 n hq
    rcases hz2 p hp1 with h | h
    · rw [← hp2, h]
    · omega
  have hin0 : ∀ fr ∈ [(⟨0, 0, pal.L, pal.W⟩ : FRect)], inBounds pal fr := by
    intro fr hfr
    simp at hfr
    subst hfr
    exact ⟨le_refl 0, le_refl 0, by simp, by simp⟩
  by_cases hcond : ((o.map Prod.fst).filter (fun n => decide (0 < lookupQ o n))).isEmpty = true
  · simp [pack_one_layer, hcond]
  · simp only [pack_one_layer]
    rw [if_neg hcond]
    have hgA : greedyAll boxes
        (isortBy (fun a b => decide ((boxes b).Area ≤ (boxes a).Area))
          ((o.map Prod.fst).filter (fun n => decide (0 < lookupQ o n))))
        [⟨0, 0, pal.L, pal.W⟩] o [] = ([⟨0, 0, pal.L, pal.W⟩], o, []) := by
      apply greedyAll_allnm boxes nm big1 big2
      · intro m hm
        rw [mem_isortBy'] at hm
        exact hval o hzero m hm
      · exact hin0
    rw [hgA]
    dsimp only
    have hnone : ∀ fr ∈ [(⟨0, 0, pal.L, pal.W⟩ : FRect)],
        findFill boxes
          (isortBy (fun a b => decide ((boxes a).Area ≤ (boxes b).Area))
            ((o.map Prod.fst).filter (fun n => decide (0 < lookupQ o n)))) o fr = none := by
      intro fr hfr
      apply findFill_allnm boxes nm big1 big2 o fr (hin0 fr hfr)
      intro m hm
      rw [mem_isortBy'] at hm
      exact hval o hzero m hm
    rw [gapLoopF_none boxes _ _ 0 _ o [] hnone]

theorem packPalletLoopF_only (pal : PalletDims) (boxes : String → BoxInfo) (o : OrderMap)
    (hpack : pack_one_layer pal boxes o = ([], o)) :
    ∀ fuel : Nat, packPalletLoopF pal boxes fuel [] 0 o = ([], o) := by
  intro fuel
  cases fuel with
  | zero => simp [packPalletLoopF]
  | succ fuel =>
    simp only [packPalletLoopF]
    by_cases hg : (0 : ℚ) < pal.H
    · rw [if_pos hg]
      by_cases hrem : (o.filter (fun p => decide (0 < p.2))).isEmpty = true
      · rw [if_pos hrem]
      · rw [if_neg hrem, hpack]
        simp
    · rw [if_neg hg]

/-- Claim C8: a box type whose footprint exceeds the container
footprint in both orientations is never placed by `pack_all_pallets`,
its order quantity is never decremented, and if it is the only
remaining demand the run terminates with zero containers produced and
the demand unsatisfied (no error is raised: the run is a total
function). -/
theorem C8_oversized_never_placed (pal : PalletDims) (boxes : String → ℚ × ℚ × ℚ)
    (order : OrderMap) (nm : String)
    (hdims : dimsPos (build_info boxes) (order.map Prod.fst) = true)
    (big1 : pal.L < (build_info boxes nm).L ∨ pal.W < (build_info boxes nm).W)
    (big2 : pal.L < (build_info boxes nm).W ∨ pal.W < (build_info boxes nm).L) :
    countName nm (allPlacements (pack_all_pallets pal boxes order).2) = 0 ∧
    lookupQ (packRun pal boxes order).2.2 nm = lookupQ order nm ∧
    (onlyDemand order nm = true → pack_all_pallets pal boxes order = ([], [])) := by
  obtain ⟨hb1, hb2⟩ := packAllLoopF_big pal (build_info boxes) nm big1 big2
    (totalQty order + 1) [] [] order ((dimsPos_iff _ _).1 hdims)
  refine ⟨?_, ?_, ?_⟩
  · rw [pack_all_pallets_eq]
    dsimp only
    unfold packRun
    have h0 : countName nm (allPlacements ([] : List (List (List Placed)))) = 0 := rfl
    rw [h0] at hb2
    exact hb2
  · unfold packRun
    exact hb1
  · intro honly
    have hq : 0 < lookupQ order nm := by
      unfold onlyDemand at honly
      rw [Bool.and_eq_true] at honly
      simpa using honly.1
    have htq : 0 < totalQty order := lt_of_lt_of_le hq (lookupQ_le_totalQty order nm)
    have hponly := pack_one_layer_only pal (build_info boxes) order nm honly big1 big2
    have hpp := packPalletLoopF_only pal (build_info boxes) order hponly (totalQty order + 1)
    rw [pack_all_pallets_eq]
    unfold packRun
    simp only [packAllLoopF]
    rw [if_pos htq, hpp]
    simp

/-- Claim C5 counterexample: with container `10×10×10`, catalog
`{A:[10,4,5], B:[10,6,5]}` and order `{A:1, B:1}`, the produced layer is
`[B at (0,0) 10×6, A at (0,6) 10×4]`; in particular no placement of A
sits at `(0,0)`, contradicting the claimed `A at (0,0)` /
`B via gap-fill at (0,4)` layout. -/
theorem C5_counterexample :
    (pack_all_pallets palC5 boxesC5 orderC5).2 =
      [[[⟨"B", 0, 0, 10, 6, 5, false⟩, ⟨"A", 0, 6, 10, 4, 5, false⟩]]] ∧
    ¬ ∃ p ∈ allPlacements (pack_all_pallets palC5 boxesC5 orderC5).2,
        p.name = "A" ∧ p.x = 0 ∧ p.y = 0 :=
  of_decide_eq_true (by with_unfolding_all rfl)

/-- Claim C5 as amended: the allocation produces one pallet with one
layer containing both boxes, B at `(0,0)` with footprint `10×6` and A
at `(0,6)` with footprint `10×4` (both placed by the greedy phase,
which sorts by area descending, so B precedes A), filling the plane
exactly (placed areas sum to the full `10×10`). -/
theorem C5_amended :
    pack_all_pallets palC5 boxesC5 orderC5 =
      ([()], [[[⟨"B", 0, 0, 10, 6, 5, false⟩, ⟨"A", 0, 6, 10, 4, 5, false⟩]]]) ∧
    ((allPlacements (pack_all_pallets palC5 boxesC5 orderC5).2).map
        (fun p => p.L * p.W)).sum = palC5.L * palC5.W :=
  of_decide_eq_true (by with_unfolding_all rfl)

set_option maxRecDepth 4000 in
/-- Claim C6 counterexample: placing a `10 × (1 - 2e-10)` box into the
free rectangle `[0,0,10,1]` leaves a top remainder of area `2e-9 > ε`,
yet `try_place` retains nothing (its retention test compares the
leftover thickness `2e-10`, not the area, against `ε`): the claimed
"retained iff area exceeds ε" is false. -/
theorem C6_counterexample :
    eps < free_area ⟨0, wC6, 10, 1 - wC6⟩ ∧
    (try_place [frC6] 10 wC6).2.1 = [] ∧
    (try_place [frC6] 10 wC6).1 = true :=
  of_decide_eq_true (by with_unfolding_all rfl)

/-- Claim C6 as amended: after a successful placement of an oriented
`u × v` box in `fr`, the right remainder is retained iff the leftover
length `fr.L - u` exceeds `ε`, and the top remainder iff the leftover
width `fr.W - v` exceeds `ε` (the threshold is on the remainder's
thickness, not its area); consequently every retained remainder has
strictly positive area. -/
theorem C6_amended (fr : FRect) (u v : ℚ) (hu : 0 < u) (hv : 0 < v)
    (huL : u ≤ fr.L) (hvW : v ≤ fr.W) :
    ((⟨fr.x + u, fr.y, fr.L - u, v⟩ : FRect) ∈ splitRemainders fr u v ↔ eps < fr.L - u) ∧
    ((⟨fr.x, fr.y + v, fr.L, fr.W - v⟩ : FRect) ∈ splitRemainders fr u v ↔ eps < fr.W - v) ∧
    ∀ g ∈ splitRemainders fr u v, 0 < free_area g := by
  have heps : (0 : ℚ) < eps := by norm_num [eps]
  refine ⟨⟨?_, ?_⟩, ⟨?_, ?_⟩, ?_⟩
  · intro hmem
    rcases split_cases hmem with ⟨hc, _⟩ | ⟨hc, he⟩
    · exact hc
    · exfalso
      have hx : fr.x + u = fr.x := congrArg FRect.x he
      linarith
  · intro hc
    unfold splitRemainders
    rw [if_pos hc]
    simp
  · intro hmem
    rcases split_cases hmem with ⟨hc, he⟩ | ⟨hc, _⟩
    · exfalso
      have hx : fr.x = fr.x + u := congrArg FRect.x he
      linarith
    · exact hc
  · intro hc
    unfold splitRemainders
    rw [if_pos hc]
    by_cases h1 : eps < fr.L - u
    · rw [if_pos h1]; simp
    · rw [if_neg h1]; simp
  · intro g hg
    rcases split_cases hg with ⟨hc, rfl⟩ | ⟨hc, rfl⟩
    · unfold free_area
      dsimp
      have h1 : (0 : ℚ) < fr.L - u := lt_trans heps hc
      exact mul_pos h1 hv
    · unfold free_area
      dsimp
      have h1 : (0 : ℚ) < fr.W - v := lt_trans heps hc
      have h2 : (0 : ℚ) < fr.L := lt_of_lt_of_le hu huL
      exact mul_pos h2 h1

/-! ## Reference-level purity of `pack_all_pallets` (claim C10) -/

theorem readH_append_lt (h : List OrderMap) (x : OrderMap) :
    ∀ r : Nat, r < h.length → readH (h ++ [x]) r = readH h r := by
  induction h with
  | nil => intro r hr; simp at hr
  | cons p t ih =>
    intro r hr
    cases r with
    | zero => simp [readH]
    | succ k =>
      have : k < t.length := by simpa using hr
      simpa [readH, List.getD_cons_succ] using ih k this

theorem readH_append_self (h : List OrderMap) (x : OrderMap) :
    readH (h ++ [x]) h.length = x := by
  induction h with
  | nil => simp [readH]
  | cons p t ih => simpa [readH, List.getD_cons_succ] using ih

theorem readH_set_other (x : OrderMap) :
    ∀ (h : List OrderMap) (i r : Nat), i ≠ r → readH (h.set i x) r = readH h r := by
  intro h
  induction h with
  | nil => intro i r _; simp [readH]
  | cons p t ih =>
    intro i r hne
    cases i with
    | zero =>
      cases r with
      | zero => exact absurd rfl hne
      | succ k => simp [readH, List.set]
    | succ j =>
      cases r with
      | zero => simp [readH, List.set]
      | succ k =>
        have : j ≠ k := fun hc => hne (by rw [hc])
        simpa [readH, List.set, List.getD_cons_succ] using ih j k this

/-- Claim C10: at reference level, `pack_all_pallets` leaves the
caller's order dict untouched (the run mutates only the fresh deep
copy), and its returned value is the pure function of the order's
value — so bounds, catalog, and order are unchanged after the call and
no state survives between calls. -/
theorem C10_reference_purity (pal : PalletDims) (boxes : String → ℚ × ℚ × ℚ)
    (h : List OrderMap) (r : Nat) (hr : r < h.length) :
    readH (pack_all_pallets_ref pal boxes h r).2 r = readH h r ∧
    (pack_all_pallets_ref pal boxes h r).1 = pack_all_pallets pal boxes (readH h r) := by
  unfold pack_all_pallets_ref
  dsimp only
  have hfresh : readH (h ++ [readH h r]) h.length = readH h r := readH_append_self h _
  constructor
  · rw [readH_set_other _ _ _ _ (by omega)]
    exact readH_append_lt h _ r hr
  · rw [hfresh, pack_all_pallets_eq]

/-! ## Fuel stabilisation of the inner loops -/

theorem greedyNameF_succ (boxes : String → BoxInfo) (nm : String) :
    ∀ (fuel : Nat) (frs : List FRect) (o : OrderMap) (pl : List Placed),
      lookupQ o nm ≤ fuel →
      greedyNameF boxes nm (fuel + 1) frs o pl = greedyNameF boxes nm fuel frs o pl := by
  intro fuel
  induction fuel with
  | zero =>
    intro frs o pl h
    have hq : ¬ 0 < lookupQ o nm := by omega
    simp [greedyNameF, hq]
  | succ k ih =>
    intro frs o pl h
    conv_lhs => rw [greedyNameF]
    conv_rhs => rw [greedyNameF]
    by_cases hq : 0 < lookupQ o nm
    · rw [if_pos hq, if_pos hq]
      by_cases hro : (try_place frs (boxes nm).L (boxes nm).W).1 = true
      · simp only [hro, if_true]
        apply ih
        rw [lookupQ_decQ, if_pos rfl]
        omega
      · simp [hro]
    · rw [if_neg hq, if_neg hq]

theorem greedyNameF_stable (boxes : String → BoxInfo) (nm : String)
    (frs : List FRect) (o : OrderMap) (pl : List Placed) :
    ∀ fuel : Nat, lookupQ o nm ≤ fuel →
      greedyNameF boxes nm fuel frs o pl =
        greedyNameF boxes nm (lookupQ o nm) frs o pl := by
  intro fuel
  induction fuel with
  | zero =>
    intro h
    have : lookupQ o nm = 0 := by omega
    rw [this]
  | succ k ih =>
    intro h
    by_cases hk : lookupQ o nm ≤ k
    · rw [greedyNameF_succ boxes nm k frs o pl hk]
      exact ih hk
    · have : lookupQ o nm = k + 1 := by omega
      rw [this]

theorem splitRemainders_len (fr : FRect) (u v : ℚ) :
    (splitRemainders fr u v).length ≤ 2 := by
  unfold splitRemainders
  split_ifs <;> simp

theorem gapLoopF_succ (boxes : String → BoxInfo) (rem_names : List String) :
    ∀ (fuel r : Nat) (frs : List FRect) (o : OrderMap) (pl : List Placed),
      gapFuel o frs r ≤ fuel →
      gapLoopF boxes rem_names (fuel + 1) r frs o pl =
        gapLoopF boxes rem_names fuel r frs o pl := by
  intro fuel
  induction fuel with
  | zero =>
    intro r frs o pl h
    unfold gapFuel at h
    have hr : ¬ r < frs.length := by omega
    simp [gapLoopF, hr]
  | succ k ih =>
    intro r frs o pl h
    conv_lhs => rw [gapLoopF]
    conv_rhs => rw [gapLoopF]
    by_cases hr : r < frs.length
    · rw [if_pos hr, if_pos hr]
      rcases hfind : findFill boxes rem_names o (frs.getD r ⟨0, 0, 0, 0⟩) with _ | ⟨nm, nf, pos⟩
      · simp only [hfind]
        apply ih
        unfold gapFuel at h ⊢
        omega
      · simp only [hfind]
        obtain ⟨hq, hmem, hok, hnf, hpos⟩ := findFill_some boxes rem_names o _ nm nf pos hfind
        apply ih
        obtain ⟨P, R, hdec, hlen, herase⟩ := getD_decomp hr
        have hlen1 : frs.length = P.length + R.length + 1 := by
          rw [hdec]; simp only [List.length_append, List.length_cons]; omega
        have hlen2 : (frs.eraseIdx r).length = P.length + R.length := by
          rw [herase]; simp
        have hnf2 : nf.length ≤ 2 := by
          obtain ⟨u, v, rot, _, _, _, hnfeq, _⟩ := try_place_single_shape hok
          rw [hnf, hnfeq]
          exact splitRemainders_len _ u v
        have htq := totalQty_decQ o nm hq
        unfold gapFuel at h ⊢
        rw [List.length_append, hlen2]
        omega
    · rw [if_neg hr, if_neg hr]

theorem gapLoopF_stable (boxes : String → BoxInfo) (rem_names : List String)
    (r : Nat) (frs : List FRect) (o : OrderMap) (pl : List Placed) :
    ∀ fuel : Nat, gapFuel o frs r ≤ fuel →
      gapLoopF boxes rem_names fuel r frs o pl =
        gapLoopF boxes rem_names (gapFuel o frs r) r frs o pl := by
  intro fuel
  induction fuel with
  | zero =>
    intro h
    have : gapFuel o frs r = 0 := by omega
    rw [this]
  | succ k ih =>
    intro h
    by_cases hk : gapFuel o frs r ≤ k
    · rw [gapLoopF_succ boxes rem_names k r frs o pl hk]
      exact ih hk
    · have : gapFuel o frs r = k + 1 := by omega
      rw [this]

theorem packPalletLoopF_succ (pal : PalletDims) (boxes : String → BoxInfo) :
    ∀ (fuel : Nat) (ll : List (List Placed)) (ch : ℚ) (o : OrderMap),
      totalQty o + 1 ≤ fuel →
      packPalletLoopF pal boxes (fuel + 1) ll ch o =
        packPalletLoopF pal boxes fuel ll ch o := by
  intro fuel
  induction fuel with
  | zero => intro ll ch o h; omega
  | succ k ih =>
    intro ll ch o h
    conv_lhs => rw [packPalletLoopF]
    conv_rhs => rw [packPalletLoopF]
    by_cases hg : ch < pal.H
    · rw [if_pos hg, if_pos hg]
      by_cases hrem : (o.filter (fun p => decide (0 < p.2))).isEmpty = true
      · rw [if_pos hrem, if_pos hrem]
      · rw [if_neg hrem, if_neg hrem]
        by_cases hpe : (pack_one_layer pal boxes o).1.isEmpty = true
        · rw [if_pos hpe, if_pos hpe]
        · rw [if_neg hpe, if_neg hpe]
          by_cases ht : maxH (pack_one_layer pal boxes o).1 ≤ 0
          · rw [if_pos ht, if_pos ht]
          · rw [if_neg ht, if_neg ht]
            by_cases hh : pal.H ≤ ch + maxH (pack_one_layer pal boxes o).1
            · rw [if_pos hh, if_pos hh]
            · rw [if_neg hh, if_neg hh]
              apply ih
              have htot := pack_one_layer_total pal boxes o
              have hne : (pack_one_layer pal boxes o).1 ≠ [] := by
                intro hc; rw [hc] at hpe; simp at hpe
              have : 1 ≤ (pack_one_layer pal boxes o).1.length := by
                cases hx : (pack_one_layer pal boxes o).1 with
                | nil => exact absurd hx hne
                | cons a t => simp
              omega
    · rw [if_neg hg, if_neg hg]

theorem packPalletLoopF_stable (pal : PalletDims) (boxes : String → BoxInfo)
    (ll : List (List Placed)) (ch : ℚ) (o : OrderMap) :
    ∀ fuel : Nat, totalQty o + 1 ≤ fuel →
      packPalletLoopF pal boxes fuel ll ch o =
        packPalletLoopF pal boxes (totalQty o + 1) ll ch o := by
  intro fuel
  induction fuel with
  | zero => intro h; omega
  | succ k ih =>
    intro h
    by_cases hk : totalQty o + 1 ≤ k
    · rw [packPalletLoopF_succ pal boxes k ll ch o hk]
      exact ih hk
    · have : totalQty o + 1 = k + 1 := by omega
      rw [this]

/-! ## Spec scenarios reproduced by the embedding -/

/-- Spec scenario 1: `40×40×90`, three `40×40×10` boxes stack into one
container of three layers, each a single unrotated placement at the
origin. -/
theorem scenario_one_stack :
    pack_all_pallets ⟨40, 40, 90⟩ (fun _ => (40, 40, 10)) [("A", 3)] =
      ([()], [[[⟨"A", 0, 0, 40, 40, 10, false⟩], [⟨"A", 0, 0, 40, 40, 10, false⟩],
               [⟨"A", 0, 0, 40, 40, 10, false⟩]]]) :=
  of_decide_eq_true (by with_unfolding_all rfl)

/-- Spec scenario 5: in a `10×6×5` container a `6×10×5` box is placed
rotated at the origin, since only the rotated orientation fits. -/
theorem scenario_rotation :
    (pack_all_pallets ⟨10, 6, 5⟩ (fun _ => (6, 10, 5)) [("A", 1)]).2 =
      [[[⟨"A", 0, 0, 10, 6, 5, true⟩]]] :=
  of_decide_eq_true (by with_unfolding_all rfl)

/-! ## Witnesses: the claim theorems applied at concrete runs -/

/-- Witness for C1: a concrete layer of two `3×2` boxes is produced
with pairwise non-overlapping placements. -/
theorem C1_witness :
    ((0 : ℚ) < (⟨10, 10, 10⟩ : PalletDims).L) ∧
    ((0 : ℚ) < (⟨10, 10, 10⟩ : PalletDims).W) ∧
    dimsPos (build_info (fun _ => (3, 2, 9))) (([("A", 2)] : OrderMap).map Prod.fst) = true ∧
    ((pack_one_layer ⟨10, 10, 10⟩ (build_info (fun _ => (3, 2, 9)))
        [("A", 2)]).1.map rOf).Pairwise disjR :=
  ⟨of_decide_eq_true (by with_unfolding_all rfl),
   of_decide_eq_true (by with_unfolding_all rfl),
   of_decide_eq_true (by with_unfolding_all rfl),
   C1_layer_non_overlap ⟨10, 10, 10⟩ (build_info (fun _ => (3, 2, 9))) [("A", 2)]
     (of_decide_eq_true (by with_unfolding_all rfl))
     (of_decide_eq_true (by with_unfolding_all rfl))
     (of_decide_eq_true (by with_unfolding_all rfl))⟩

/-- Witness for C4: the placement produced by a concrete run lies
within the bounds. -/
theorem C4_witness :
    ((0 : ℚ) < (⟨10, 10, 20⟩ : PalletDims).L) ∧
    ((0 : ℚ) < (⟨10, 10, 20⟩ : PalletDims).W) ∧
    dimsPos (build_info (fun _ => (4, 3, 5))) (([("A", 1)] : OrderMap).map Prod.fst) = true ∧
    (⟨"A", 0, 0, 4, 3, 5, false⟩ : Placed) ∈
      allPlacements (pack_all_pallets ⟨10, 10, 20⟩ (fun _ => (4, 3, 5)) [("A", 1)]).2 ∧
    inBounds ⟨10, 10, 20⟩ (rOf ⟨"A", 0, 0, 4, 3, 5, false⟩) :=
  ⟨of_decide_eq_true (by with_unfolding_all rfl),
   of_decide_eq_true (by with_unfolding_all rfl),
   of_decide_eq_true (by with_unfolding_all rfl),
   of_decide_eq_true (by with_unfolding_all rfl),
   C4_containment ⟨10, 10, 20⟩ (fun _ => (4, 3, 5)) [("A", 1)]
     (of_decide_eq_true (by with_unfolding_all rfl))
     (of_decide_eq_true (by with_unfolding_all rfl))
     (of_decide_eq_true (by with_unfolding_all rfl))
     ⟨"A", 0, 0, 4, 3, 5, false⟩
     (of_decide_eq_true (by with_unfolding_all rfl))⟩

/-- Witness for C7: the single pallet of a concrete run satisfies the
height bookkeeping facts. -/
theorem C7_witness :
    heightsNonneg (build_info (fun _ => (4, 3, 5)))
      (([("A", 1)] : OrderMap).map Prod.fst) = true ∧
    [[(⟨"A", 0, 0, 4, 3, 5, false⟩ : Placed)]] ∈
      (pack_all_pallets ⟨10, 10, 20⟩ (fun _ => (4, 3, 5)) [("A", 1)]).2 ∧
    ([[(⟨"A", 0, 0, 4, 3, 5, false⟩ : Placed)]] ≠ [] ∧
     (∀ lay ∈ [[(⟨"A", 0, 0, 4, 3, 5, false⟩ : Placed)]], lay ≠ []) ∧
     (∀ k : Nat, (([[(⟨"A", 0, 0, 4, 3, 5, false⟩ : Placed)]].map maxH).take k).sum ≤
        (([[(⟨"A", 0, 0, 4, 3, 5, false⟩ : Placed)]].map maxH).take (k + 1)).sum) ∧
     (([[(⟨"A", 0, 0, 4, 3, 5, false⟩ : Placed)]].dropLast.map maxH).sum <
        (⟨10, 10, 20⟩ : PalletDims).H)) :=
  ⟨of_decide_eq_true (by with_unfolding_all rfl),
   of_decide_eq_true (by with_unfolding_all rfl),
   C7_heights ⟨10, 10, 20⟩ (fun _ => (4, 3, 5)) [("A", 1)]
     (of_decide_eq_true (by with_unfolding_all rfl))
     [[⟨"A", 0, 0, 4, 3, 5, false⟩]]
     (of_decide_eq_true (by with_unfolding_all rfl))⟩

/-- Witness for C8: spec scenario 2, a `20×5×5` box in a `10×10×10`
container (oversized in both orientations, sole demand). -/
theorem C8_witness :
    dimsPos (build_info (fun _ => (20, 5, 5))) (([("A", 1)] : OrderMap).map Prod.fst) = true ∧
    ((⟨10, 10, 10⟩ : PalletDims).L < (build_info (fun _ => (20, 5, 5)) "A").L ∨
      (⟨10, 10, 10⟩ : PalletDims).W < (build_info (fun _ => (20, 5, 5)) "A").W) ∧
    ((⟨10, 10, 10⟩ : PalletDims).L < (build_info (fun _ => (20, 5, 5)) "A").W ∨
      (⟨10, 10, 10⟩ : PalletDims).W < (build_info (fun _ => (20, 5, 5)) "A").L) ∧
    (countName "A" (allPlacements
        (pack_all_pallets ⟨10, 10, 10⟩ (fun _ => (20, 5, 5)) [("A", 1)]).2) = 0 ∧
     lookupQ (packRun ⟨10, 10, 10⟩ (fun _ => (20, 5, 5)) [("A", 1)]).2.2 "A" =
        lookupQ [("A", 1)] "A" ∧
     (onlyDemand [("A", 1)] "A" = true →
        pack_all_pallets ⟨10, 10, 10⟩ (fun _ => (20, 5, 5)) [("A", 1)] = ([], []))) :=
  ⟨of_decide_eq_true (by with_unfolding_all rfl),
   of_decide_eq_true (by with_unfolding_all rfl),
   of_decide_eq_true (by with_unfolding_all rfl),
   C8_oversized_never_placed ⟨10, 10, 10⟩ (fun _ => (20, 5, 5)) [("A", 1)] "A"
     (of_decide_eq_true (by with_unfolding_all rfl))
     (of_decide_eq_true (by with_unfolding_all rfl))
     (of_decide_eq_true (by with_unfolding_all rfl))⟩

/-- Witness for the amended C6 at a concrete split: a `4×5` box placed
in `[0,0,10,10]` retains both remainders, each of positive area. -/
theorem C6_amended_witness :
    ((0 : ℚ) < 4) ∧ ((0 : ℚ) < 5) ∧ ((4 : ℚ) ≤ (⟨0, 0, 10, 10⟩ : FRect).L) ∧
    ((5 : ℚ) ≤ (⟨0, 0, 10, 10⟩ : FRect).W) ∧
    (((⟨(⟨0, 0, 10, 10⟩ : FRect).x + 4, (⟨0, 0, 10, 10⟩ : FRect).y,
        (⟨0, 0, 10, 10⟩ : FRect).L - 4, 5⟩ : FRect) ∈
          splitRemainders ⟨0, 0, 10, 10⟩ 4 5 ↔ eps < (⟨0, 0, 10, 10⟩ : FRect).L - 4) ∧
     ((⟨(⟨0, 0, 10, 10⟩ : FRect).x, (⟨0, 0, 10, 10⟩ : FRect).y + 5,
        (⟨0, 0, 10, 10⟩ : FRect).L, (⟨0, 0, 10, 10⟩ : FRect).W - 5⟩ : FRect) ∈
          splitRemainders ⟨0, 0, 10, 10⟩ 4 5 ↔ eps < (⟨0, 0, 10, 10⟩ : FRect).W - 5) ∧
     ∀ g ∈ splitRemainders ⟨0, 0, 10, 10⟩ 4 5, 0 < free_area g) :=
  ⟨of_decide_eq_true (by with_unfolding_all rfl),
   of_decide_eq_true (by with_unfolding_all rfl),
   of_decide_eq_true (by with_unfolding_all rfl),
   of_decide_eq_true (by with_unfolding_all rfl),
   C6_amended ⟨0, 0, 10, 10⟩ 4 5
     (of_decide_eq_true (by with_unfolding_all rfl))
     (of_decide_eq_true (by with_unfolding_all rfl))
     (of_decide_eq_true (by with_unfolding_all rfl))
     (of_decide_eq_true (by with_unfolding_all rfl))⟩

/-- Witness for C10: a two-cell heap whose first cell holds the
caller's order is unchanged by a run working on the deep copy. -/
theorem C10_witness :
    0 < ([[("A", 1)]] : List OrderMap).length ∧
    readH (pack_all_pallets_ref ⟨10, 10, 10⟩ (fun _ => (2, 2, 2)) [[("A", 1)]] 0).2 0 =
      readH [[("A", 1)]] 0 ∧
    (pack_all_pallets_ref ⟨10, 10, 10⟩ (fun _ => (2, 2, 2)) [[("A", 1)]] 0).1 =
      pack_all_pallets ⟨10, 10, 10⟩ (fun _ => (2, 2, 2)) (readH [[("A", 1)]] 0) :=
  ⟨of_decide_eq_true (by with_unfolding_all rfl),
   (C10_reference_purity ⟨10, 10, 10⟩ (fun _ => (2, 2, 2)) [[("A", 1)]] 0
     (of_decide_eq_true (by with_unfolding_all rfl))).1,
   (C10_reference_purity ⟨10, 10, 10⟩ (fun _ => (2, 2, 2)) [[("A", 1)]] 0
     (of_decide_eq_true (by with_unfolding_all rfl))).2⟩

end PalletPack
